import Mathlib

/-!
Shallow embedding of LightGBM's leaf partition store (`DataPartition`), its
block scheduler (`Threading`), and the SIMD-aligned allocator, together with
proofs of the specified properties.

Machine integers (`data_size_t`, `int`, `std::size_t`) are modelled as `Nat`
(all quantities involved are non-negative and far from the overflow range for
the inputs admitted by the callers' contracts); buffers (`std::vector`) are
modelled as `List Nat`, with `List.getD ... 0` for `operator[]` reads and
`List.set` / `listWriteAt` for writes.  The out-of-bounds access that
`DataPartition::Split` performs when the leaf being split is empty (index
`nblock - 1 = -1` into `left_write_pos_buf_`) is modelled by returning `none`.
-/

namespace LightGBM

/-- The contiguous slice `buf[pos .. pos+len)`, the counterpart of passing
`buf.data() + pos` together with a length. -/
def readSlice (buf : List Nat) (pos len : Nat) : List Nat :=
  (buf.drop pos).take len

/-- Overwrite `buf` starting at position `pos` with the elements of `xs`,
the counterpart of `memcpy` / `std::copy_n` into `buf.data() + pos`. -/
def listWriteAt (buf : List Nat) (pos : Nat) (xs : List Nat) : List Nat :=
  buf.take pos ++ xs ++ buf.drop (pos + xs.length)

/-- Modelled from the spec: the constant `kAlignedSize` lives in
`include/LightGBM/meta.h`, which is not among the visible sources; the spec
(section 4.1) says block sizes are rounded up to a fixed element-alignment
boundary, and the repository uses 32 elements. -/
def kAlignedSize : Nat := 32

/-- Modelled from the spec: the macro `SIZE_ALIGNED` of
`include/LightGBM/meta.h` (not among the visible sources) rounds its argument
up to the next multiple of `kAlignedSize`. -/
def SIZE_ALIGNED (t : Nat) : Nat :=
  (t + kAlignedSize - 1) / kAlignedSize * kAlignedSize

namespace Threading

/-- `Threading::BlockInfo` (`include/LightGBM/utils/threading.h`).  The
ambient OpenMP thread count is passed explicitly as `num_threads`, matching
the overload at lines 34-46; the overload at lines 17-33 queries the ambient
pool and then computes exactly the same values. -/
def BlockInfo (num_threads cnt min_cnt_per_block : Nat) : Nat × Nat :=
  let out_nblock : Nat :=
    min num_threads ((cnt + min_cnt_per_block - 1) / min_cnt_per_block)
  if 1 < out_nblock then
    (out_nblock, SIZE_ALIGNED ((cnt + out_nblock - 1) / out_nblock))
  else
    (out_nblock, cnt)

/-- The list of `(block_index, inner_start, inner_end)` triples with which
`Threading::For` invokes `inner_fun`: block `i` gets
`inner_start = start + num_inner * i` and
`inner_end = min end (inner_start + num_inner)`. -/
def forBlocks (num_threads start_ end_ min_block_size : Nat) :
    List (Nat × Nat × Nat) :=
  let nb := (BlockInfo num_threads (end_ - start_) min_block_size).1
  let num_inner := (BlockInfo num_threads (end_ - start_) min_block_size).2
  (List.range nb).map fun i =>
    (i, start_ + num_inner * i, min end_ (start_ + num_inner * i + num_inner))

/-- `Threading::For`.  The OpenMP `parallel for` is a fork-join loop whose
blocks write disjoint state, so it is modelled as a fold of `inner_fun` over
the block list; the returned number is `n_block`. -/
def For {σ : Type} (num_threads start_ end_ min_block_size : Nat)
    (inner_fun : Nat → Nat → Nat → σ → σ) (s : σ) : Nat × σ :=
  ((BlockInfo num_threads (end_ - start_) min_block_size).1,
    (forBlocks num_threads start_ end_ min_block_size).foldl
      (fun st b => inner_fun b.1 b.2.1 b.2.2 st) s)

end Threading

/-- The state of `DataPartition` (`src/treelearner/data_partition.hpp`).
The borrowed bagging pointer `used_data_indices_` together with
`used_data_count_` is modelled as an optional list (the pointer is `nullptr`
iff the option is `none`, and `used_data_count_` is the list's length). -/
structure DataPartition where
  num_data : Nat
  num_leaves : Nat
  leaf_begin : List Nat
  leaf_count : List Nat
  indices : List Nat
  temp_left_indices : List Nat
  temp_right_indices : List Nat
  used_data_indices : Option (List Nat)
  num_threads : Nat
  offsets_buf : List Nat
  left_cnts_buf : List Nat
  right_cnts_buf : List Nat
  left_write_pos_buf : List Nat
  right_write_pos_buf : List Nat
deriving Repr, DecidableEq

/-- The `DataPartition(num_data, num_leaves)` constructor; `nt` is the
ambient OpenMP thread count observed at construction time.  `std::vector`
value-initializes, so every buffer starts out as zeros of the right size. -/
def DataPartition.construct (nd nl nt : Nat) : DataPartition where
  num_data := nd
  num_leaves := nl
  leaf_begin := List.replicate nl 0
  leaf_count := List.replicate nl 0
  indices := List.replicate nd 0
  temp_left_indices := List.replicate nd 0
  temp_right_indices := List.replicate nd 0
  used_data_indices := none
  num_threads := nt
  offsets_buf := List.replicate nt 0
  left_cnts_buf := List.replicate nt 0
  right_cnts_buf := List.replicate nt 0
  left_write_pos_buf := List.replicate nt 0
  right_write_pos_buf := List.replicate nt 0

/-- `DataPartition::SetUsedDataIndices`: store the borrowed bagging subset
reference and its length for the next `Init`. -/
def DataPartition.SetUsedDataIndices (dp : DataPartition) (used : List Nat) :
    DataPartition :=
  { dp with used_data_indices := some used }

/-- `DataPartition::Init`: zero-fill the leaf bookkeeping, then put the whole
active set (identity permutation, or the bagging subset in its given order)
on leaf 0. -/
def DataPartition.Init (dp : DataPartition) : DataPartition :=
  let lb := List.replicate dp.leaf_begin.length 0
  let lc := List.replicate dp.leaf_count.length 0
  match dp.used_data_indices with
  | none =>
    { dp with
      leaf_begin := lb
      leaf_count := lc.set 0 dp.num_data
      indices := listWriteAt dp.indices 0 (List.range dp.num_data) }
  | some used =>
    { dp with
      leaf_begin := lb
      leaf_count := lc.set 0 used.length
      indices := listWriteAt dp.indices 0 used }

/-- The body of the lambda that `DataPartition::Split` hands to
`Threading::For` (lines 125-141): on a non-empty sub-range it calls the
`Dataset::Split` oracle `o` on the slice
`indices[begin + cur_start .. begin + cur_end)`, which writes the ids routed
left (resp. right) to `temp_left_indices_ + cur_start`
(resp. `temp_right_indices_ + cur_start`) and returns the left count. -/
def DataPartition.splitBlock (o : List Nat → List Nat × List Nat)
    (begin_ : Nat) (i cur_start cur_end : Nat) (dp : DataPartition) :
    DataPartition :=
  let cur_cnt := cur_end - cur_start
  if cur_cnt = 0 then
    { dp with
      left_cnts_buf := dp.left_cnts_buf.set i 0
      right_cnts_buf := dp.right_cnts_buf.set i 0 }
  else
    let lr := o (readSlice dp.indices (begin_ + cur_start) cur_cnt)
    { dp with
      temp_left_indices := listWriteAt dp.temp_left_indices cur_start lr.1
      temp_right_indices := listWriteAt dp.temp_right_indices cur_start lr.2
      offsets_buf := dp.offsets_buf.set i cur_start
      left_cnts_buf := dp.left_cnts_buf.set i lr.1.length
      right_cnts_buf := dp.right_cnts_buf.set i (cur_cnt - lr.1.length) }

/-- The sequential write-position loop of `DataPartition::Split`
(lines 144-149): exclusive prefix sums of the per-block left and right
counts, written into the two write-position buffers. -/
def writePosPhase (lcnts rcnts lwp0 rwp0 : List Nat) (nblock : Nat) :
    List Nat × List Nat :=
  (List.range' 1 (nblock - 1)).foldl
    (fun lr i =>
      (lr.1.set i (lr.1.getD (i - 1) 0 + lcnts.getD (i - 1) 0),
       lr.2.set i (lr.2.getD (i - 1) 0 + rcnts.getD (i - 1) 0)))
    (lwp0, rwp0)

/-- The merge loop of `DataPartition::Split` (lines 153-159): block `i`
copies `lc[i]` elements of `temp_left` from offset `ob[i]` to
`indices + begin + lwp[i]`, and `rc[i]` elements of `temp_right` from offset
`ob[i]` to `indices + begin + left_cnt + rwp[i]`.  The OpenMP loop's blocks
write disjoint destination ranges, so it is modelled as a fold in block
order. -/
def mergeCopy (tl tr ob lc rc lwp rwp : List Nat) (begin_ left_cnt : Nat)
    (nblock : Nat) (ind0 : List Nat) : List Nat :=
  (List.range nblock).foldl
    (fun ind i =>
      let ind2 := listWriteAt ind (begin_ + lwp.getD i 0)
          (readSlice tl (ob.getD i 0) (lc.getD i 0))
      listWriteAt ind2 (begin_ + left_cnt + rwp.getD i 0)
          (readSlice tr (ob.getD i 0) (rc.getD i 0)))
    ind0

/-- `DataPartition::Split`.  `o` is the external `Dataset::Split` oracle
(spec section 6), `T` the ambient OpenMP thread count re-queried by
`Threading::For`.  When the leaf is empty, `Threading::For` yields
`nblock = 0` and the C++ reads `left_write_pos_buf_[nblock - 1]`, an
out-of-bounds access at index `-1`; this is modelled by `none`. -/
def DataPartition.Split (o : List Nat → List Nat × List Nat) (T : Nat)
    (dp : DataPartition) (leaf right_leaf : Nat) : Option DataPartition :=
  let begin_ := dp.leaf_begin.getD leaf 0
  let cnt := dp.leaf_count.getD leaf 0
  let res := Threading.For T 0 cnt 1024 (DataPartition.splitBlock o begin_) dp
  let nblock := res.1
  let dp1 := res.2
  if nblock = 0 then
    none
  else
    let wp := writePosPhase dp1.left_cnts_buf dp1.right_cnts_buf
        (dp1.left_write_pos_buf.set 0 0) (dp1.right_write_pos_buf.set 0 0)
        nblock
    let left_cnt := wp.1.getD (nblock - 1) 0 +
        dp1.left_cnts_buf.getD (nblock - 1) 0
    some { dp1 with
      indices := mergeCopy dp1.temp_left_indices dp1.temp_right_indices
          dp1.offsets_buf dp1.left_cnts_buf dp1.right_cnts_buf wp.1 wp.2
          begin_ left_cnt nblock dp1.indices
      left_write_pos_buf := wp.1
      right_write_pos_buf := wp.2
      leaf_count := (dp1.leaf_count.set leaf left_cnt).set right_leaf
          (cnt - left_cnt)
      leaf_begin := dp1.leaf_begin.set right_leaf (left_cnt + begin_) }

/-- Modelled from the spec: `Dataset::Split` (the external split-decision
oracle of spec section 6) is not among the visible sources; a stable
deterministic oracle routes each example id by a fixed decision predicate,
keeping the relative order of the ids on each side. -/
def oracleOfPred (p : Nat → Bool) (xs : List Nat) : List Nat × List Nat :=
  (xs.filter p, xs.filter fun x => ! p x)

/-- The per-block left outputs of the oracle during a `Split` of `leaf`:
entry `i` is what the oracle routes left on block `i`'s slice of the leaf's
range. -/
def DataPartition.splitLefts (o : List Nat → List Nat × List Nat) (T : Nat)
    (dp : DataPartition) (leaf : Nat) : List (List Nat) :=
  (Threading.forBlocks T 0 (dp.leaf_count.getD leaf 0) 1024).map fun b =>
    (o (readSlice dp.indices ((dp.leaf_begin.getD leaf 0) + b.2.1)
      (b.2.2 - b.2.1))).1

/-- The per-block right outputs of the oracle during a `Split` of `leaf`. -/
def DataPartition.splitRights (o : List Nat → List Nat × List Nat) (T : Nat)
    (dp : DataPartition) (leaf : Nat) : List (List Nat) :=
  (Threading.forBlocks T 0 (dp.leaf_count.getD leaf 0) 1024).map fun b =>
    (o (readSlice dp.indices ((dp.leaf_begin.getD leaf 0) + b.2.1)
      (b.2.2 - b.2.1))).2

/-- The number of usable examples: `num_data_`, or `used_data_count_` when a
bagging subset has been supplied (spec invariant 1). -/
def DataPartition.activeCount (dp : DataPartition) : Nat :=
  match dp.used_data_indices with
  | none => dp.num_data
  | some used => used.length

/-- The active example-id set, in its defining order: the identity
permutation `0 .. num_data-1`, or the bagging subset. -/
def DataPartition.activeIds (dp : DataPartition) : List Nat :=
  match dp.used_data_indices with
  | none => List.range dp.num_data
  | some used => used

/-- The position ranges `[leaf_begin[l], leaf_begin[l] + leaf_count[l])` of
the shared `indices` buffer, one per leaf. -/
def DataPartition.leafRanges (dp : DataPartition) : List (List Nat) :=
  (List.range dp.num_leaves).map fun l =>
    List.range' (dp.leaf_begin.getD l 0) (dp.leaf_count.getD l 0)

/-- The example ids currently held by each leaf:
`indices[leaf_begin[l] .. leaf_begin[l] + leaf_count[l])`, one list per
leaf. -/
def DataPartition.leafIds (dp : DataPartition) : List (List Nat) :=
  (List.range dp.num_leaves).map fun l =>
    readSlice dp.indices (dp.leaf_begin.getD l 0) (dp.leaf_count.getD l 0)

/-- The sum of `leaf_count` over all leaves. -/
def DataPartition.sumLeafCounts (dp : DataPartition) : Nat :=
  ((List.range dp.num_leaves).map fun l => dp.leaf_count.getD l 0).sum

section ListLemmas

theorem readSlice_zero_len (buf : List Nat) (pos : Nat) :
    readSlice buf pos 0 = [] := rfl

theorem readSlice_length (buf : List Nat) (pos len : Nat)
    (h : pos + len ≤ buf.length) : (readSlice buf pos len).length = len := by
  simp only [readSlice, List.length_take, List.length_drop]
  omega

theorem readSlice_append (buf : List Nat) (pos n m : Nat) :
    readSlice buf pos n ++ readSlice buf (pos + n) m =
      readSlice buf pos (n + m) := by
  simp only [readSlice, ← List.drop_drop]
  exact (List.take_add _ _ _).symm

theorem readSlice_drop (buf : List Nat) (pos n m : Nat) :
    (readSlice buf pos n).drop m = readSlice buf (pos + m) (n - m) := by
  simp only [readSlice, List.drop_take, List.drop_drop]

theorem readSlice_eq_map (buf : List Nat) (pos n : Nat)
    (h : pos + n ≤ buf.length) :
    readSlice buf pos n = (List.range' pos n).map fun j => buf.getD j 0 := by
  induction n generalizing pos with
  | zero => rfl
  | succ n ih =>
    have hpos : pos < buf.length := by omega
    rw [List.range'_succ, List.map_cons, ← ih (pos + 1) (by omega)]
    simp only [readSlice]
    rw [List.drop_eq_getElem_cons hpos, List.take_succ_cons]
    congr 1
    exact (List.getD_eq_getElem buf 0 hpos).symm

theorem listWriteAt_nil (buf : List Nat) (pos : Nat) :
    listWriteAt buf pos [] = buf := by
  simp [listWriteAt]

theorem listWriteAt_length (buf xs : List Nat) (pos : Nat)
    (h : pos + xs.length ≤ buf.length) :
    (listWriteAt buf pos xs).length = buf.length := by
  simp only [listWriteAt, List.length_append, List.length_take,
    List.length_drop]
  omega

theorem listWriteAt_boundary (A rest xs : List Nat) :
    listWriteAt (A ++ rest) A.length xs = A ++ xs ++ rest.drop xs.length := by
  simp only [listWriteAt, List.take_left, List.drop_append]

theorem readSlice_listWriteAt_self (buf xs : List Nat) (pos : Nat)
    (h : pos ≤ buf.length) :
    readSlice (listWriteAt buf pos xs) pos xs.length = xs := by
  have hpos : (buf.take pos).length = pos := by
    simp [List.length_take]; omega
  simp only [readSlice, listWriteAt, List.append_assoc]
  have h1 := List.drop_left (buf.take pos) (xs ++ buf.drop (pos + xs.length))
  rw [hpos] at h1
  rw [h1, List.take_left]

theorem listWriteAt_take_of_le (buf xs : List Nat) (pos m : Nat)
    (hm : m ≤ pos) (hb : m ≤ buf.length) :
    (listWriteAt buf pos xs).take m = buf.take m := by
  have h1 : m ≤ (buf.take pos).length := by
    simp [List.length_take]; omega
  simp only [listWriteAt, List.append_assoc]
  rw [List.take_append_of_le_length h1, List.take_take, Nat.min_eq_left hm]

theorem listWriteAt_drop_of_ge (buf xs : List Nat) (pos m : Nat)
    (hpos : pos ≤ buf.length) (h : pos + xs.length ≤ m) :
    (listWriteAt buf pos xs).drop m = buf.drop m := by
  have hL : (buf.take pos ++ xs).length = pos + xs.length := by
    simp [List.length_take]; omega
  have hsplit : m = (buf.take pos ++ xs).length + (m - pos - xs.length) := by
    omega
  rw [show listWriteAt buf pos xs = (buf.take pos ++ xs) ++
        buf.drop (pos + xs.length) by simp [listWriteAt, List.append_assoc],
    hsplit, List.drop_append, List.drop_drop]
  congr 1
  omega

theorem readSlice_eq_of_take_eq (b1 b2 : List Nat) (pos len m : Nat)
    (h : b1.take m = b2.take m) (hm : pos + len ≤ m) :
    readSlice b1 pos len = readSlice b2 pos len := by
  have key : ∀ b : List Nat, readSlice b pos len =
      ((b.take m).drop pos).take len := by
    intro b
    simp only [readSlice, List.drop_take, List.take_take]
    rw [Nat.min_eq_left (by omega)]
  rw [key b1, key b2, h]

theorem getD_set_self (l : List Nat) (i v : Nat) (h : i < l.length) :
    (l.set i v).getD i 0 = v := by
  simp [List.getD_eq_getElem?_getD, List.getElem?_set_self h]

theorem getD_set_ne (l : List Nat) (i j v : Nat) (h : i ≠ j) :
    (l.set i v).getD j 0 = l.getD j 0 := by
  simp [List.getD_eq_getElem?_getD, List.getElem?_set_ne h]

theorem ceil_div_spec (c m : Nat) (hm : 1 ≤ m) :
    c ≤ m * ((c + m - 1) / m) ∧ m * ((c + m - 1) / m) < c + m := by
  rcases Nat.eq_zero_or_pos c with hc | hc
  · subst hc
    have : (m - 1) / m = 0 := Nat.div_eq_of_lt (by omega)
    simp [this]
    omega
  · have he : c + m - 1 = (c - 1) + m := by omega
    rw [he, Nat.add_div_right _ (by omega)]
    have h1 := Nat.div_add_mod (c - 1) m
    have h2 := Nat.mod_lt (c - 1) (show 0 < m by omega)
    have h3 : m * ((c - 1) / m + 1) = m * ((c - 1) / m) + m := by ring
    omega

theorem SIZE_ALIGNED_ge (t : Nat) : t ≤ SIZE_ALIGNED t := by
  have := (ceil_div_spec t kAlignedSize (by norm_num [kAlignedSize])).1
  simpa [SIZE_ALIGNED, Nat.mul_comm] using this

end ListLemmas

section MultisetLemmas

theorem coe_join_multiset (L : List (List Nat)) :
    Multiset.ofList L.flatten = (L.map Multiset.ofList).sum := by
  induction L with
  | nil => rfl
  | cons x L ih =>
    rw [List.flatten_cons, List.map_cons, List.sum_cons, ← ih]
    exact (Multiset.coe_add x L.flatten).symm

theorem sum_map_range_congr_one (n a : Nat) (f g : Nat → Multiset Nat)
    (ha : a < n) (hfg : ∀ x, x < n → x ≠ a → f x = g x) :
    ((List.range n).map f).sum + g a = ((List.range n).map g).sum + f a := by
  induction n with
  | zero => omega
  | succ n ih =>
    rw [List.range_succ, List.map_append, List.map_append, List.sum_append,
      List.sum_append]
    simp only [List.map_cons, List.map_nil, List.sum_cons, List.sum_nil,
      add_zero]
    rcases Nat.lt_or_ge a n with han | han
    · have ih' := ih han fun x hx hxa => hfg x (by omega) hxa
      have hfn : f n = g n := hfg n (by omega) (by omega)
      calc ((List.range n).map f).sum + f n + g a
          = ((List.range n).map f).sum + g a + f n := by
            rw [add_right_comm]
        _ = ((List.range n).map g).sum + f a + f n := by rw [ih']
        _ = ((List.range n).map g).sum + g n + f a := by
            rw [add_right_comm, hfn]
    · have han' : a = n := by omega
      subst han'
      have hS : ((List.range a).map f).sum = ((List.range a).map g).sum := by
        apply congrArg
        apply List.map_congr_left
        intro x hx
        exact hfg x (by simpa using List.mem_range.mp hx |>.trans (by omega))
          (by have := List.mem_range.mp hx; omega)
      rw [hS, add_right_comm]

theorem sum_map_range_congr_two (n a b : Nat) (f g : Nat → Multiset Nat)
    (hab : a ≠ b) (ha : a < n) (hb : b < n)
    (hfg : ∀ x, x < n → x ≠ a → x ≠ b → f x = g x) :
    ((List.range n).map f).sum + (g a + g b) =
      ((List.range n).map g).sum + (f a + f b) := by
  set h : Nat → Multiset Nat := fun x => if x = b then g b else f x with hh
  have h1 : ((List.range n).map f).sum + h b =
      ((List.range n).map h).sum + f b := by
    apply sum_map_range_congr_one n b f h hb
    intro x hx hxb
    simp [hh, hxb]
  have h2 : ((List.range n).map h).sum + g a =
      ((List.range n).map g).sum + h a := by
    apply sum_map_range_congr_one n a h g ha
    intro x hx hxa
    rcases eq_or_ne x b with rfl | hxb
    · simp [hh]
    · simp only [hh, if_neg hxb]
      exact hfg x hx hxa hxb
  have hba : h b = g b := by simp [hh]
  have hha : h a = f a := by simp [hh, hab]
  rw [hba] at h1
  rw [hha] at h2
  calc ((List.range n).map f).sum + (g a + g b)
      = ((List.range n).map f).sum + g b + g a := by abel
    _ = ((List.range n).map h).sum + f b + g a := by rw [h1]
    _ = ((List.range n).map h).sum + g a + f b := by rw [add_right_comm]
    _ = ((List.range n).map g).sum + f a + f b := by rw [h2]
    _ = ((List.range n).map g).sum + (f a + f b) := by abel

end MultisetLemmas

section ThreadingLemmas

theorem BlockInfo_nblock (T cnt m : Nat) :
    (Threading.BlockInfo T cnt m).1 = min T ((cnt + m - 1) / m) := by
  simp only [Threading.BlockInfo]
  split <;> rfl

theorem BlockInfo_bs_of_le_one (T cnt m : Nat)
    (h : (Threading.BlockInfo T cnt m).1 ≤ 1) :
    (Threading.BlockInfo T cnt m).2 = cnt := by
  rw [BlockInfo_nblock] at h
  simp only [Threading.BlockInfo]
  split
  · next hgt => omega
  · rfl

theorem BlockInfo_bs_of_gt_one (T cnt m : Nat)
    (h : 1 < (Threading.BlockInfo T cnt m).1) :
    (Threading.BlockInfo T cnt m).2 =
      SIZE_ALIGNED ((cnt + (Threading.BlockInfo T cnt m).1 - 1) /
        (Threading.BlockInfo T cnt m).1) := by
  rw [BlockInfo_nblock] at h ⊢
  simp only [Threading.BlockInfo]
  split
  · rfl
  · next hgt => omega

theorem BlockInfo_nblock_le (T cnt m : Nat) :
    (Threading.BlockInfo T cnt m).1 ≤ T := by
  rw [BlockInfo_nblock]
  omega

theorem BlockInfo_zero_iff (T cnt m : Nat) (hm : 1 ≤ m) (hT : 1 ≤ T) :
    (Threading.BlockInfo T cnt m).1 = 0 ↔ cnt = 0 := by
  rw [BlockInfo_nblock]
  constructor
  · intro h
    have hq : (cnt + m - 1) / m = 0 := by omega
    have := (Nat.div_eq_zero_iff (by omega : 0 < m)).mp hq
    omega
  · intro h
    subst h
    have : (m - 1) / m = 0 := Nat.div_eq_of_lt (by omega)
    simp [this]

theorem BlockInfo_mul_ge (T cnt m : Nat) (hm : 1 ≤ m) (hT : 1 ≤ T) :
    cnt ≤ (Threading.BlockInfo T cnt m).1 * (Threading.BlockInfo T cnt m).2 := by
  set nb := (Threading.BlockInfo T cnt m).1 with hnb
  rcases Nat.lt_or_ge 1 nb with h1 | h1
  · rw [BlockInfo_bs_of_gt_one T cnt m h1]
    have hceil := (ceil_div_spec cnt nb (by omega)).1
    have halign := SIZE_ALIGNED_ge ((cnt + nb - 1) / nb)
    calc cnt ≤ nb * ((cnt + nb - 1) / nb) := hceil
      _ ≤ nb * SIZE_ALIGNED ((cnt + nb - 1) / nb) :=
          Nat.mul_le_mul_left nb halign
  · rw [BlockInfo_bs_of_le_one T cnt m h1]
    rcases Nat.eq_zero_or_pos nb with h0 | h0
    · have := (BlockInfo_zero_iff T cnt m hm hT).mp h0
      omega
    · have h2 : nb = 1 := by omega
      rw [h2, Nat.one_mul]

theorem forBlocks_eq (T s e m : Nat) :
    Threading.forBlocks T s e m =
      (List.range (Threading.BlockInfo T (e - s) m).1).map fun i =>
        (i, s + (Threading.BlockInfo T (e - s) m).2 * i,
          min e (s + (Threading.BlockInfo T (e - s) m).2 * i +
            (Threading.BlockInfo T (e - s) m).2)) := rfl

theorem join_blocks_range (s e bs : Nat) (hse : s ≤ e) (k : Nat) :
    ((List.range k).map fun i =>
        List.range' (s + bs * i) (min e (s + bs * i + bs) - (s + bs * i))).flatten
      = List.range' s (min (bs * k) (e - s)) := by
  induction k with
  | zero => simp
  | succ k ih =>
    rw [List.range_succ, List.map_append, List.flatten_append]
    simp only [List.map_cons, List.map_nil, List.flatten_cons,
      List.flatten_nil, List.append_nil]
    rw [ih]
    have hmono : bs * k ≤ bs * (k + 1) := Nat.mul_le_mul_left bs (by omega)
    by_cases hk : e - s ≤ bs * k
    · have h1 : min (bs * k) (e - s) = e - s := by omega
      have h2 : min e (s + bs * k + bs) - (s + bs * k) = 0 := by omega
      have h3 : min (bs * (k + 1)) (e - s) = e - s := by omega
      rw [h1, h2, h3]
      simp
    · have h1 : min (bs * k) (e - s) = bs * k := by omega
      have hm : bs * (k + 1) = bs * k + bs := by ring
      have hlen : min e (s + bs * k + bs) - (s + bs * k) =
          min (bs * (k + 1)) (e - s) - bs * k := by omega
      rw [h1, hlen, List.range'_append_1]
      congr 1
      omega

end ThreadingLemmas

/-- C5: for every `count`, `min_count_per_block >= 1` and ambient thread
count `T >= 1`, `BlockInfo` returns
`num_blocks = min(T, ceil(count / min_count_per_block))` (the second and
third conjuncts pin `(count + m - 1) / m` down as the ceiling of
`count / m`); when `num_blocks = 1` it returns `block_size = count`, and when
`num_blocks > 1` it returns `block_size` equal to `ceil(count / num_blocks)`
rounded up to the alignment boundary; in every case
`num_blocks * block_size >= count` and `num_blocks <= T`. -/
theorem C5_blockinfo_postcondition (T cnt m : Nat) (hm : 1 ≤ m)
    (hT : 1 ≤ T) :
    (Threading.BlockInfo T cnt m).1 = min T ((cnt + m - 1) / m)
    ∧ cnt ≤ m * ((cnt + m - 1) / m)
    ∧ m * ((cnt + m - 1) / m) < cnt + m
    ∧ ((Threading.BlockInfo T cnt m).1 = 1 →
        (Threading.BlockInfo T cnt m).2 = cnt)
    ∧ (1 < (Threading.BlockInfo T cnt m).1 →
        (Threading.BlockInfo T cnt m).2 =
          SIZE_ALIGNED ((cnt + (Threading.BlockInfo T cnt m).1 - 1) /
            (Threading.BlockInfo T cnt m).1))
    ∧ cnt ≤ (Threading.BlockInfo T cnt m).1 * (Threading.BlockInfo T cnt m).2
    ∧ (Threading.BlockInfo T cnt m).1 ≤ T := by
  refine ⟨BlockInfo_nblock T cnt m, (ceil_div_spec cnt m hm).1,
    (ceil_div_spec cnt m hm).2, ?_, BlockInfo_bs_of_gt_one T cnt m,
    BlockInfo_mul_ge T cnt m hm hT, BlockInfo_nblock_le T cnt m⟩
  intro h1
  exact BlockInfo_bs_of_le_one T cnt m (by omega)

/-- C5 witness: `T = 4`, `count = 100`, `min_count_per_block = 1` gives
4 blocks of aligned size 32. -/
theorem C5_blockinfo_postcondition_witness :
    (1 ≤ 1 ∧ 1 ≤ 4)
    ∧ ((Threading.BlockInfo 4 100 1).1 = min 4 ((100 + 1 - 1) / 1)
      ∧ 100 ≤ 1 * ((100 + 1 - 1) / 1)
      ∧ 1 * ((100 + 1 - 1) / 1) < 100 + 1
      ∧ ((Threading.BlockInfo 4 100 1).1 = 1 →
          (Threading.BlockInfo 4 100 1).2 = 100)
      ∧ (1 < (Threading.BlockInfo 4 100 1).1 →
          (Threading.BlockInfo 4 100 1).2 =
            SIZE_ALIGNED ((100 + (Threading.BlockInfo 4 100 1).1 - 1) /
              (Threading.BlockInfo 4 100 1).1))
      ∧ 100 ≤ (Threading.BlockInfo 4 100 1).1 * (Threading.BlockInfo 4 100 1).2
      ∧ (Threading.BlockInfo 4 100 1).1 ≤ 4) :=
  ⟨⟨le_refl 1, by omega⟩, C5_blockinfo_postcondition 4 100 1 (by omega) (by omega)⟩

/-- C6: for `start <= end` and `min_block_size >= 1`, `Threading::For`
computes its block count via `BlockInfo`, invokes the body once per block
index `i` in `[0, num_blocks)` on the range
`[start + i * block_size, min(end, start + (i+1) * block_size))` (in block
order, as a fold), the union of those ranges (each empty when its lower
bound is not below its upper bound) is exactly `[start, end)` with no
overlap, and `For` returns the actual `num_blocks` used. -/
theorem C6_parallel_for_coverage {σ : Type} (T s e m : Nat) (hse : s ≤ e)
    (hm : 1 ≤ m) (hT : 1 ≤ T) (body : Nat → Nat → Nat → σ → σ) (st : σ) :
    (Threading.For T s e m body st).1 = (Threading.BlockInfo T (e - s) m).1
    ∧ Threading.forBlocks T s e m =
        (List.range (Threading.BlockInfo T (e - s) m).1).map (fun i =>
          (i, s + (Threading.BlockInfo T (e - s) m).2 * i,
            min e (s + (Threading.BlockInfo T (e - s) m).2 * i +
              (Threading.BlockInfo T (e - s) m).2)))
    ∧ ((Threading.forBlocks T s e m).map fun b =>
          List.range' b.2.1 (b.2.2 - b.2.1)).flatten = List.range' s (e - s)
    ∧ (Threading.For T s e m body st).2 =
        (Threading.forBlocks T s e m).foldl
          (fun t b => body b.1 b.2.1 b.2.2 t) st := by
  refine ⟨rfl, forBlocks_eq T s e m, ?_, rfl⟩
  have hcov : e - s ≤ (Threading.BlockInfo T (e - s) m).2 *
      (Threading.BlockInfo T (e - s) m).1 := by
    rw [Nat.mul_comm]
    exact BlockInfo_mul_ge T (e - s) m hm hT
  rw [forBlocks_eq, List.map_map]
  show ((List.range (Threading.BlockInfo T (e - s) m).1).map fun i =>
    List.range' (s + (Threading.BlockInfo T (e - s) m).2 * i)
      (min e (s + (Threading.BlockInfo T (e - s) m).2 * i +
        (Threading.BlockInfo T (e - s) m).2) -
        (s + (Threading.BlockInfo T (e - s) m).2 * i))).flatten = _
  rw [join_blocks_range s e (Threading.BlockInfo T (e - s) m).2 hse
    (Threading.BlockInfo T (e - s) m).1]
  congr 1
  omega

/-- C6 witness: `T = 3`, `[start, end) = [2, 9)`, `min_block_size = 2`. -/
theorem C6_parallel_for_coverage_witness :
    (2 ≤ 9 ∧ 1 ≤ 2 ∧ 1 ≤ 3)
    ∧ ((Threading.For 3 2 9 2 (fun _ a b t => t + (b - a)) 0).1 =
        (Threading.BlockInfo 3 7 2).1
      ∧ ((Threading.forBlocks 3 2 9 2).map fun b =>
          List.range' b.2.1 (b.2.2 - b.2.1)).flatten = List.range' 2 7) := by
  have h := C6_parallel_for_coverage (σ := Nat) 3 2 9 2 (by omega) (by omega)
    (by omega) (fun _ a b t => t + (b - a)) 0
  exact ⟨⟨by omega, by omega, by omega⟩, h.1, h.2.2.1⟩

/-- C10: on an empty range (`start = end`), `BlockInfo` yields zero blocks,
the body of `Threading::For` is never invoked (the block list is empty and
the state is returned untouched), and `For` returns 0, not 1; consequently
`DataPartition::Split` on an empty leaf, which indexes its per-block
bookkeeping buffers at `nblock - 1`, accesses index `-1` — modelled here by
`Split` returning `none`. -/
theorem C10_empty_range_for_returns_zero (T s m : Nat) (hT : 1 ≤ T)
    (hm : 1 ≤ m) :
    Threading.forBlocks T s s m = []
    ∧ (∀ (σ : Type) (body : Nat → Nat → Nat → σ → σ) (st : σ),
        (Threading.For T s s m body st).1 = 0 ∧
          (Threading.For T s s m body st).2 = st)
    ∧ ((Threading.BlockInfo T 0 m).1 : Int) - 1 = -1
    ∧ ∀ (o : List Nat → List Nat × List Nat) (dp : DataPartition)
        (leaf rl : Nat), dp.leaf_count.getD leaf 0 = 0 →
          DataPartition.Split o T dp leaf rl = none := by
  have h0 : (Threading.BlockInfo T (s - s) m).1 = 0 := by
    rw [Nat.sub_self]
    exact (BlockInfo_zero_iff T 0 m hm hT).mpr rfl
  have hb : Threading.forBlocks T s s m = [] := by
    rw [forBlocks_eq, h0, List.range_zero, List.map_nil]
  have h00 : (Threading.BlockInfo T 0 m).1 = 0 :=
    (BlockInfo_zero_iff T 0 m hm hT).mpr rfl
  refine ⟨hb, fun σ body st => ⟨h0, ?_⟩, by rw [h00]; rfl, ?_⟩
  · show (Threading.forBlocks T s s m).foldl _ st = st
    rw [hb]
    rfl
  · intro o dp leaf rl hcnt
    unfold DataPartition.Split
    have hz : (Threading.BlockInfo T (dp.leaf_count.getD leaf 0 - 0) 1024).1
        = 0 := by
      rw [hcnt]
      exact (BlockInfo_zero_iff T 0 1024 (by omega) hT).mpr rfl
    simp only [Threading.For, hz, if_pos rfl]
    rfl

/-- C10 witness: a concrete empty-leaf split with `T = 2`. -/
theorem C10_empty_range_for_returns_zero_witness :
    (1 ≤ 2 ∧ 1 ≤ 1024)
    ∧ Threading.forBlocks 2 7 7 1024 = []
    ∧ (Threading.For 2 7 7 1024 (fun _ _ _ (t : Nat) => t + 1) 0).1 = 0
    ∧ DataPartition.Split (oracleOfPred fun x => x % 2 == 0) 2
        (DataPartition.construct 4 2 2).Init 1 0 = none := by
  have h := C10_empty_range_for_returns_zero 2 7 1024 (by omega) (by omega)
  refine ⟨⟨by omega, by omega⟩, h.1, (h.2.1 Nat (fun _ _ _ t => t + 1) 0).1,
    h.2.2.2 _ _ 1 0 (by decide)⟩

/-- The two failure conditions of the aligned allocator
(`R-package/src/lightgbm_R.cpp`): `std::length_error` for the integer
overflow guard and `std::bad_alloc` for an allocation failure. -/
inductive AllocError where
  | length_error
  | bad_alloc
deriving Repr, DecidableEq

/-- A successful `allocate` outcome: the null pointer (returned for
`n = 0`) or a real aligned block. -/
inductive AllocResult where
  | nullPtr
  | ptr
deriving Repr, DecidableEq

/-- `SIZE_MAX` of the 64-bit `std::size_t`, written in the source as
`static_cast<std::size_t>(0) - static_cast<std::size_t>(1)`. -/
def sizeMax : Nat := 2 ^ 64 - 1

/-- `AlignmentAllocator<T, Alignment>::max_size`
(`R-package/src/lightgbm_R.cpp` lines 759-761): `SIZE_MAX / sizeof(T)`. -/
def AlignmentAllocator.max_size (sizeofT : Nat) : Nat := sizeMax / sizeofT

/-- `AlignmentAllocator<T, Alignment>::allocate`
(`R-package/src/lightgbm_R.cpp` lines 794-808): null for `n = 0`;
`std::length_error` when `n > max_size()`; otherwise forwards to
`_mm_malloc`, whose success on this request is the environment fact
`mm_malloc_ok`, raising `std::bad_alloc` on a null return. -/
def AlignmentAllocator.allocate (sizeofT : Nat) (mm_malloc_ok : Bool)
    (n : Nat) : Except AllocError AllocResult :=
  if n = 0 then .ok .nullPtr
  else if n > AlignmentAllocator.max_size sizeofT then .error .length_error
  else if mm_malloc_ok then .ok .ptr
  else .error .bad_alloc

/-- C8: `allocate(n)` raises `std::length_error` if and only if `n` exceeds
`max_size()`; otherwise, if the underlying aligned allocation fails it
raises `std::bad_alloc`; otherwise it succeeds, returning the null pointer
for `n = 0` without raising; no failure is swallowed or retried. -/
theorem C8_allocator_error_behaviour (sizeofT n : Nat) (mm : Bool) :
    (AlignmentAllocator.allocate sizeofT mm n =
        Except.error AllocError.length_error ↔
      AlignmentAllocator.max_size sizeofT < n)
    ∧ (n ≤ AlignmentAllocator.max_size sizeofT → mm = false → 0 < n →
        AlignmentAllocator.allocate sizeofT mm n =
          Except.error AllocError.bad_alloc)
    ∧ (n ≤ AlignmentAllocator.max_size sizeofT → mm = true → 0 < n →
        AlignmentAllocator.allocate sizeofT mm n = Except.ok AllocResult.ptr)
    ∧ AlignmentAllocator.allocate sizeofT mm 0 =
        Except.ok AllocResult.nullPtr := by
  unfold AlignmentAllocator.allocate
  refine ⟨?_, ?_, ?_, by simp⟩
  · by_cases hn : n = 0
    · subst hn
      simp
    · by_cases hbig : AlignmentAllocator.max_size sizeofT < n
      · simp [hn, hbig]
      · rcases mm with _ | _ <;> simp [hn, hbig]
  · intro h1 h2 h3
    subst h2
    simp [show n ≠ 0 by omega, show ¬ AlignmentAllocator.max_size sizeofT < n
      by omega]
  · intro h1 h2 h3
    subst h2
    simp [show n ≠ 0 by omega, show ¬ AlignmentAllocator.max_size sizeofT < n
      by omega]

/-- C8 witness: `sizeof(T) = 4` (the `data_size_t` instance); a request of
3 elements with a healthy `_mm_malloc` succeeds. -/
theorem C8_allocator_error_behaviour_witness :
    (3 ≤ AlignmentAllocator.max_size 4 ∧ 0 < 3)
    ∧ ¬ (AlignmentAllocator.allocate 4 true 3 =
        Except.error AllocError.length_error)
    ∧ AlignmentAllocator.allocate 4 true 3 = Except.ok AllocResult.ptr
    ∧ AlignmentAllocator.allocate 4 true 0 =
        Except.ok AllocResult.nullPtr := by
  have h := C8_allocator_error_behaviour 4 3 true
  have hle : 3 ≤ AlignmentAllocator.max_size 4 := by
    norm_num [AlignmentAllocator.max_size, sizeMax]
  exact ⟨⟨hle, by omega⟩, fun hc => absurd (h.1.mp hc) (by omega),
    h.2.2.1 hle rfl (by omega), h.2.2.2⟩

section SplitProof

theorem readSlice_listWriteAt_left (buf xs : List Nat) (pos s n : Nat)
    (h : s + n ≤ pos) (hp : pos ≤ buf.length) :
    readSlice (listWriteAt buf pos xs) s n = readSlice buf s n :=
  readSlice_eq_of_take_eq _ _ s n pos
    (listWriteAt_take_of_le buf xs pos pos le_rfl hp) h

/-- The canonical block list produced by `Threading::For` over `[0, cnt)`:
block `i` covers `[bs * i, min cnt (bs * i + bs))`. -/
def blocksOf (bs cnt k : Nat) : List (Nat × Nat × Nat) :=
  (List.range k).map fun i => (i, bs * i, min cnt (bs * i + bs))

theorem forBlocks_zero_start (T cnt m : Nat) :
    Threading.forBlocks T 0 cnt m =
      blocksOf (Threading.BlockInfo T cnt m).2 cnt
        (Threading.BlockInfo T cnt m).1 := by
  simp only [Threading.forBlocks, blocksOf, Nat.sub_zero, Nat.zero_add]

/-- The fold of the per-block lambda over a block list, as performed by the
`Threading::For` call inside `DataPartition::Split`. -/
def blocksFold (o : List Nat → List Nat × List Nat) (begin_ : Nat)
    (bl : List (Nat × Nat × Nat)) (dp : DataPartition) : DataPartition :=
  bl.foldl (fun st b => DataPartition.splitBlock o begin_ b.1 b.2.1 b.2.2 st)
    dp

theorem For_splitBlock_eq (o : List Nat → List Nat × List Nat)
    (T begin_ cnt : Nat) (dp : DataPartition) :
    Threading.For T 0 cnt 1024 (DataPartition.splitBlock o begin_) dp =
      ((Threading.BlockInfo T cnt 1024).1,
        blocksFold o begin_ (Threading.forBlocks T 0 cnt 1024) dp) := rfl

theorem blocksFold_spec (o : List Nat → List Nat × List Nat)
    (Hlen : ∀ xs, ((o xs).1).length + ((o xs).2).length = xs.length)
    (begin_ bs cnt : Nat) (dp : DataPartition)
    (hind : begin_ + cnt ≤ dp.indices.length)
    (htl : cnt ≤ dp.temp_left_indices.length)
    (htr : cnt ≤ dp.temp_right_indices.length)
    (k : Nat)
    (hcap : ∀ i, i < k → i < dp.offsets_buf.length ∧
      i < dp.left_cnts_buf.length ∧ i < dp.right_cnts_buf.length) :
    ∀ dp1, dp1 = blocksFold o begin_ (blocksOf bs cnt k) dp →
      dp1.indices = dp.indices ∧
      dp1.leaf_begin = dp.leaf_begin ∧
      dp1.leaf_count = dp.leaf_count ∧
      dp1.num_data = dp.num_data ∧
      dp1.num_leaves = dp.num_leaves ∧
      dp1.used_data_indices = dp.used_data_indices ∧
      dp1.num_threads = dp.num_threads ∧
      dp1.left_write_pos_buf = dp.left_write_pos_buf ∧
      dp1.right_write_pos_buf = dp.right_write_pos_buf ∧
      dp1.temp_left_indices.length = dp.temp_left_indices.length ∧
      dp1.temp_right_indices.length = dp.temp_right_indices.length ∧
      dp1.offsets_buf.length = dp.offsets_buf.length ∧
      dp1.left_cnts_buf.length = dp.left_cnts_buf.length ∧
      dp1.right_cnts_buf.length = dp.right_cnts_buf.length ∧
      ∀ i, i < k →
        dp1.left_cnts_buf.getD i 0 =
          ((o (readSlice dp.indices (begin_ + bs * i)
            (min cnt (bs * i + bs) - bs * i))).1).length ∧
        dp1.right_cnts_buf.getD i 0 =
          ((o (readSlice dp.indices (begin_ + bs * i)
            (min cnt (bs * i + bs) - bs * i))).2).length ∧
        (min cnt (bs * i + bs) - bs * i ≠ 0 →
          dp1.offsets_buf.getD i 0 = bs * i) ∧
        readSlice dp1.temp_left_indices (bs * i)
            ((o (readSlice dp.indices (begin_ + bs * i)
              (min cnt (bs * i + bs) - bs * i))).1).length =
          (o (readSlice dp.indices (begin_ + bs * i)
            (min cnt (bs * i + bs) - bs * i))).1 ∧
        readSlice dp1.temp_right_indices (bs * i)
            ((o (readSlice dp.indices (begin_ + bs * i)
              (min cnt (bs * i + bs) - bs * i))).2).length =
          (o (readSlice dp.indices (begin_ + bs * i)
            (min cnt (bs * i + bs) - bs * i))).2 := by
  have honil : ((o []).1 = [] ∧ (o []).2 = []) := by
    have h := Hlen []
    simp only [List.length_nil] at h
    exact ⟨List.length_eq_zero.mp (by omega), List.length_eq_zero.mp (by omega)⟩
  induction k with
  | zero =>
    intro dp1 h1
    subst h1
    refine ⟨rfl, rfl, rfl, rfl, rfl, rfl, rfl, rfl, rfl, rfl, rfl, rfl, rfl,
      rfl, ?_⟩
    intro i hi
    omega
  | succ k ih =>
    intro dp1 h1
    have hblocks : blocksOf bs cnt (k + 1) =
        blocksOf bs cnt k ++ [(k, bs * k, min cnt (bs * k + bs))] := by
      simp [blocksOf, List.range_succ]
    obtain ⟨hI, hLB, hLC, hND, hNL, hUD, hNT, hLW, hRW, hTL, hTR, hOB, hLCB,
      hRCB, hfacts⟩ :=
      ih (fun i hi => hcap i (by omega)) (blocksFold o begin_
        (blocksOf bs cnt k) dp) rfl
    have hstep : dp1 = DataPartition.splitBlock o begin_ k (bs * k)
        (min cnt (bs * k + bs))
        (blocksFold o begin_ (blocksOf bs cnt k) dp) := by
      rw [h1, hblocks]
      simp only [blocksFold, List.foldl_append, List.foldl_cons,
        List.foldl_nil]
    set dpk := blocksFold o begin_ (blocksOf bs cnt k) dp with hdpk
    by_cases h0 : min cnt (bs * k + bs) - bs * k = 0
    · -- empty block: only the two count slots are written
      have hxs : readSlice dp.indices (begin_ + bs * k)
          (min cnt (bs * k + bs) - bs * k) = [] := by
        rw [h0]
        rfl
      have hd1 : dp1 = { dpk with
          left_cnts_buf := dpk.left_cnts_buf.set k 0
          right_cnts_buf := dpk.right_cnts_buf.set k 0 } := by
        rw [hstep]
        simp [DataPartition.splitBlock, h0]
      rw [hd1]
      refine ⟨hI, hLB, hLC, hND, hNL, hUD, hNT, hLW, hRW, hTL, hTR, hOB,
        by simp [hLCB], by simp [hRCB], ?_⟩
      intro i hik
      rcases Nat.lt_or_ge i k with hik' | hik'
      · obtain ⟨f1, f2, f3, f4, f5⟩ := hfacts i hik'
        exact ⟨by rw [getD_set_ne _ _ _ _ (by omega), f1],
          by rw [getD_set_ne _ _ _ _ (by omega), f2], f3, f4, f5⟩
      · have hik2 : i = k := by omega
        subst hik2
        rw [hxs, honil.1, honil.2]
        refine ⟨?_, ?_, by omega, by simp [readSlice], by simp [readSlice]⟩
        · rw [getD_set_self _ _ _ (by rw [hLCB]; exact (hcap i (by omega)).2.1)]
          simp
        · rw [getD_set_self _ _ _ (by rw [hRCB]; exact (hcap i (by omega)).2.2)]
          simp
    · -- non-empty block
      have hcc : 0 < min cnt (bs * k + bs) - bs * k := by omega
      have hek : min cnt (bs * k + bs) ≤ cnt := by omega
      have hsk : bs * k < cnt := by omega
      have hxs_eq : readSlice dpk.indices (begin_ + bs * k)
          (min cnt (bs * k + bs) - bs * k) =
          readSlice dp.indices (begin_ + bs * k)
            (min cnt (bs * k + bs) - bs * k) := by rw [hI]
      set xs := readSlice dp.indices (begin_ + bs * k)
        (min cnt (bs * k + bs) - bs * k) with hxs
      have hxslen : xs.length = min cnt (bs * k + bs) - bs * k := by
        rw [hxs]
        exact readSlice_length _ _ _ (by omega)
      have hl_le : ((o xs).1).length ≤ min cnt (bs * k + bs) - bs * k := by
        have := Hlen xs
        omega
      have hr_eq : (min cnt (bs * k + bs) - bs * k) - ((o xs).1).length =
          ((o xs).2).length := by
        have := Hlen xs
        omega
      have hd1 : dp1 = { dpk with
          temp_left_indices :=
            listWriteAt dpk.temp_left_indices (bs * k) (o xs).1
          temp_right_indices :=
            listWriteAt dpk.temp_right_indices (bs * k) (o xs).2
          offsets_buf := dpk.offsets_buf.set k (bs * k)
          left_cnts_buf := dpk.left_cnts_buf.set k ((o xs).1).length
          right_cnts_buf := dpk.right_cnts_buf.set k
            ((min cnt (bs * k + bs) - bs * k) - ((o xs).1).length) } := by
        rw [hstep]
        simp only [DataPartition.splitBlock, if_neg h0, hxs_eq]
      have htlw : bs * k + ((o xs).1).length ≤ dpk.temp_left_indices.length := by
        rw [hTL]
        omega
      have htrw : bs * k + ((o xs).2).length ≤
          dpk.temp_right_indices.length := by
        have := Hlen xs
        rw [hTR]
        omega
      rw [hd1]
      refine ⟨hI, hLB, hLC, hND, hNL, hUD, hNT, hLW, hRW,
        by rw [listWriteAt_length _ _ _ htlw, hTL],
        by rw [listWriteAt_length _ _ _ htrw, hTR],
        by simp [hOB], by simp [hLCB], by simp [hRCB], ?_⟩
      intro i hik
      rcases Nat.lt_or_ge i k with hik' | hik'
      · obtain ⟨f1, f2, f3, f4, f5⟩ := hfacts i hik'
        have hle_i : ((o (readSlice dp.indices (begin_ + bs * i)
            (min cnt (bs * i + bs) - bs * i))).1).length ≤
            min cnt (bs * i + bs) - bs * i := by
          rcases Nat.eq_zero_or_pos (min cnt (bs * i + bs) - bs * i) with
            hz | hz
          · rw [show readSlice dp.indices (begin_ + bs * i)
              (min cnt (bs * i + bs) - bs * i) = [] by rw [hz]; rfl,
              honil.1]
            simp
          · have := Hlen (readSlice dp.indices (begin_ + bs * i)
              (min cnt (bs * i + bs) - bs * i))
            rw [readSlice_length _ _ _ (by omega)] at this
            omega
        have hre_i : ((o (readSlice dp.indices (begin_ + bs * i)
            (min cnt (bs * i + bs) - bs * i))).2).length ≤
            min cnt (bs * i + bs) - bs * i := by
          rcases Nat.eq_zero_or_pos (min cnt (bs * i + bs) - bs * i) with
            hz | hz
          · rw [show readSlice dp.indices (begin_ + bs * i)
              (min cnt (bs * i + bs) - bs * i) = [] by rw [hz]; rfl,
              honil.2]
            simp
          · have := Hlen (readSlice dp.indices (begin_ + bs * i)
              (min cnt (bs * i + bs) - bs * i))
            rw [readSlice_length _ _ _ (by omega)] at this
            omega
        have hmono : bs * (i + 1) ≤ bs * k := Nat.mul_le_mul_left bs (by omega)
        have hbound_i : min cnt (bs * i + bs) ≤ bs * k := by
          have : bs * (i + 1) = bs * i + bs := by ring
          omega
        refine ⟨by rw [getD_set_ne _ _ _ _ (by omega), f1],
          by rw [getD_set_ne _ _ _ _ (by omega), f2],
          fun hne => by rw [getD_set_ne _ _ _ _ (by omega)]; exact f3 hne,
          ?_, ?_⟩
        · rw [readSlice_listWriteAt_left _ _ _ _ _ (by omega)
            (by rw [hTL]; omega), f4]
        · rw [readSlice_listWriteAt_left _ _ _ _ _ (by omega)
            (by rw [hTR]; omega), f5]
      · have hik2 : i = k := by omega
        subst hik2
        refine ⟨?_, ?_, fun _ => ?_, ?_, ?_⟩
        · rw [getD_set_self _ _ _ (by rw [hLCB]; exact (hcap i (by omega)).2.1)]
        · rw [getD_set_self _ _ _ (by rw [hRCB]; exact (hcap i (by omega)).2.2)]
          exact hr_eq
        · rw [getD_set_self _ _ _ (by rw [hOB]; exact (hcap i (by omega)).1)]
        · exact readSlice_listWriteAt_self _ _ _ (by rw [hTL]; omega)
        · exact readSlice_listWriteAt_self _ _ _ (by rw [hTR]; omega)

theorem writePosPhase_partial (lcnts rcnts lwp0 rwp0 : List Nat)
    (nblock : Nat) (hn : 1 ≤ nblock)
    (hl : nblock ≤ lwp0.length) (hr : nblock ≤ rwp0.length)
    (h0l : lwp0.getD 0 0 = 0) (h0r : rwp0.getD 0 0 = 0) :
    ∀ k, k ≤ nblock - 1 →
      ∀ st, st = (List.range' 1 k).foldl
          (fun lr i =>
            (lr.1.set i (lr.1.getD (i - 1) 0 + lcnts.getD (i - 1) 0),
             lr.2.set i (lr.2.getD (i - 1) 0 + rcnts.getD (i - 1) 0)))
          (lwp0, rwp0) →
        st.1.length = lwp0.length ∧ st.2.length = rwp0.length ∧
        ∀ i, i ≤ k →
          st.1.getD i 0 = ((List.range i).map fun j => lcnts.getD j 0).sum ∧
          st.2.getD i 0 = ((List.range i).map fun j => rcnts.getD j 0).sum := by
  intro k
  induction k with
  | zero =>
    intro hk st hst
    subst hst
    refine ⟨rfl, rfl, ?_⟩
    intro i hi
    have h00 : i = 0 := by omega
    subst h00
    simp only [List.range_zero, List.map_nil, List.sum_nil]
    exact ⟨h0l, h0r⟩
  | succ k ih =>
    intro hk st hst
    obtain ⟨hL, hR, hfacts⟩ := ih (by omega) _ rfl
    have hconcat : List.range' 1 (k + 1) = List.range' 1 k ++ [1 + k] :=
      List.range'_1_concat 1 k
    rw [hconcat, List.foldl_append, List.foldl_cons, List.foldl_nil] at hst
    have hidx : 1 + k - 1 = k := by omega
    rw [hidx] at hst
    obtain ⟨hgk, hgk'⟩ := hfacts k (by omega)
    subst hst
    refine ⟨by rw [List.length_set]; exact hL,
      by rw [List.length_set]; exact hR, ?_⟩
    intro i hi
    rcases Nat.lt_or_ge i (1 + k) with hik | hik
    · obtain ⟨f1, f2⟩ := hfacts i (by omega)
      exact ⟨by rw [getD_set_ne _ _ _ _ (by omega), f1],
        by rw [getD_set_ne _ _ _ _ (by omega), f2]⟩
    · have : i = 1 + k := by omega
      subst this
      have hsum : ∀ f : Nat → Nat,
          ((List.range (1 + k)).map f).sum = ((List.range k).map f).sum +
            f k := by
        intro f
        rw [show 1 + k = k + 1 by omega, List.range_succ, List.map_append,
          List.sum_append]
        simp
      constructor
      · rw [getD_set_self _ _ _ (by rw [hL]; omega), hgk, hsum]
      · rw [getD_set_self _ _ _ (by rw [hR]; omega), hgk', hsum]

theorem writePosPhase_spec (lcnts rcnts lwp0 rwp0 : List Nat)
    (nblock : Nat) (hn : 1 ≤ nblock)
    (hl : nblock ≤ lwp0.length) (hr : nblock ≤ rwp0.length)
    (h0l : lwp0.getD 0 0 = 0) (h0r : rwp0.getD 0 0 = 0) :
    (writePosPhase lcnts rcnts lwp0 rwp0 nblock).1.length = lwp0.length ∧
    (writePosPhase lcnts rcnts lwp0 rwp0 nblock).2.length = rwp0.length ∧
    ∀ i, i < nblock →
      (writePosPhase lcnts rcnts lwp0 rwp0 nblock).1.getD i 0 =
        ((List.range i).map fun j => lcnts.getD j 0).sum ∧
      (writePosPhase lcnts rcnts lwp0 rwp0 nblock).2.getD i 0 =
        ((List.range i).map fun j => rcnts.getD j 0).sum := by
  obtain ⟨h1, h2, h3⟩ := writePosPhase_partial lcnts rcnts lwp0 rwp0 nblock
    hn hl hr h0l h0r (nblock - 1) le_rfl
    (writePosPhase lcnts rcnts lwp0 rwp0 nblock) rfl
  exact ⟨h1, h2, fun i hi => h3 i (by omega)⟩

theorem sum_range_mono (f : Nat → Nat) {k n : Nat} (h : k ≤ n) :
    ((List.range k).map f).sum ≤ ((List.range n).map f).sum := by
  induction n with
  | zero =>
    have hk : k = 0 := by omega
    subst hk
    exact le_rfl
  | succ n ih =>
    rcases Nat.lt_or_ge k (n + 1) with hk | hk
    · calc ((List.range k).map f).sum ≤ ((List.range n).map f).sum :=
          ih (by omega)
        _ ≤ ((List.range (n + 1)).map f).sum := by
          rw [List.range_succ, List.map_append, List.sum_append]
          exact Nat.le_add_right _ _
    · have hk2 : k = n + 1 := by omega
      subst hk2
      exact le_rfl

theorem flatten_range_succ (l : Nat → List Nat) (k : Nat) :
    ((List.range (k + 1)).map l).flatten =
      ((List.range k).map l).flatten ++ l k := by
  rw [List.range_succ, List.map_append, List.flatten_append]
  simp

theorem flatten_range_len (l : Nat → List Nat) (k : Nat) :
    (((List.range k).map l).flatten).length =
      ((List.range k).map fun j => (l j).length).sum := by
  rw [List.length_flatten, List.map_map]
  rfl

theorem sum_range_succ_nat (f : Nat → Nat) (k : Nat) :
    ((List.range (k + 1)).map f).sum = ((List.range k).map f).sum + f k := by
  rw [List.range_succ, List.map_append, List.sum_append]
  simp

theorem mergeCopy_partial (tl tr ob lc rc lwp rwp : List Nat)
    (begin_ left_cnt n : Nat) (ind0 : List Nat) (l r : Nat → List Nat)
    (hdata : ∀ i, i < n →
      readSlice tl (ob.getD i 0) (lc.getD i 0) = l i ∧
      readSlice tr (ob.getD i 0) (rc.getD i 0) = r i)
    (hlwp : ∀ i, i < n →
      lwp.getD i 0 = ((List.range i).map fun j => (l j).length).sum)
    (hrwp : ∀ i, i < n →
      rwp.getD i 0 = ((List.range i).map fun j => (r j).length).sum)
    (hleft : left_cnt = ((List.range n).map fun j => (l j).length).sum)
    (hind : begin_ + left_cnt +
      ((List.range n).map fun j => (r j).length).sum ≤ ind0.length) :
    ∀ k, k ≤ n →
      (List.range k).foldl
        (fun ind i =>
          let ind2 := listWriteAt ind (begin_ + lwp.getD i 0)
              (readSlice tl (ob.getD i 0) (lc.getD i 0))
          listWriteAt ind2 (begin_ + left_cnt + rwp.getD i 0)
            (readSlice tr (ob.getD i 0) (rc.getD i 0)))
        ind0 =
      ind0.take begin_ ++ ((List.range k).map l).flatten ++
        readSlice ind0
          (begin_ + ((List.range k).map fun j => (l j).length).sum)
          (left_cnt - ((List.range k).map fun j => (l j).length).sum) ++
        ((List.range k).map r).flatten ++
        ind0.drop (begin_ + left_cnt +
          ((List.range k).map fun j => (r j).length).sum) := by
  intro k
  induction k with
  | zero =>
    intro hk
    simp only [List.range_zero, List.foldl_nil, List.map_nil,
      List.flatten_nil, List.sum_nil, Nat.add_zero, Nat.sub_zero,
      List.append_nil]
    have h2 : (ind0.drop begin_).drop left_cnt =
        ind0.drop (begin_ + left_cnt) := List.drop_drop _ _ _
    have h1 : readSlice ind0 begin_ left_cnt ++
        ind0.drop (begin_ + left_cnt) = ind0.drop begin_ := by
      simp only [readSlice]
      rw [← h2]
      exact List.take_append_drop _ _
    rw [List.append_assoc, h1]
    exact (List.take_append_drop _ _).symm
  | succ k ih =>
    intro hk
    have hkn : k < n := by omega
    conv_lhs => rw [List.range_succ]
    rw [List.foldl_append]
    simp only [List.foldl_cons, List.foldl_nil]
    rw [ih (by omega)]
    obtain ⟨hdl, hdr⟩ := hdata k hkn
    rw [hdl, hdr, hlwp k hkn, hrwp k hkn]
    set A := ind0.take begin_ ++ ((List.range k).map l).flatten with hA
    set sL := ((List.range k).map fun j => (l j).length).sum with hsL
    set sR := ((List.range k).map fun j => (r j).length).sum with hsR
    set M := readSlice ind0 (begin_ + sL) (left_cnt - sL) with hM
    set Rk := ((List.range k).map r).flatten with hRk
    set T := ind0.drop (begin_ + left_cnt + sR) with hT
    have hble : begin_ ≤ ind0.length := by omega
    have hsL1 : sL + (l k).length =
        ((List.range (k + 1)).map fun j => (l j).length).sum :=
      (sum_range_succ_nat _ k).symm
    have hsR1 : sR + (r k).length =
        ((List.range (k + 1)).map fun j => (r j).length).sum :=
      (sum_range_succ_nat _ k).symm
    have hsLle : sL + (l k).length ≤ left_cnt := by
      rw [hleft, hsL1]
      exact sum_range_mono _ (by omega)
    have hsRle : sR + (r k).length ≤
        ((List.range n).map fun j => (r j).length).sum := by
      rw [hsR1]
      exact sum_range_mono _ (by omega)
    have hAlen : A.length = begin_ + sL := by
      rw [hA, List.length_append, List.length_take, flatten_range_len,
        Nat.min_eq_left hble, hsL]
    have hMlen : M.length = left_cnt - sL := by
      rw [hM]
      exact readSlice_length _ _ _ (by omega)
    have hRklen : Rk.length = sR := by
      rw [hRk, flatten_range_len, hsR]
    -- first write: the left chunk lands at the boundary after A
    have regroup1 : A ++ M ++ Rk ++ T = A ++ (M ++ (Rk ++ T)) := by
      simp [List.append_assoc]
    have hb1 := listWriteAt_boundary A (M ++ (Rk ++ T)) (l k)
    rw [hAlen] at hb1
    rw [regroup1, hb1]
    have hlkM : (l k).length ≤ M.length := by omega
    rw [List.drop_append_of_le_length hlkM]
    have hMdrop : M.drop (l k).length =
        readSlice ind0 (begin_ + (sL + (l k).length))
          (left_cnt - (sL + (l k).length)) := by
      have e1 : begin_ + sL + (l k).length = begin_ + (sL + (l k).length) :=
        by omega
      have e2 : left_cnt - sL - (l k).length =
          left_cnt - (sL + (l k).length) := by omega
      rw [hM, readSlice_drop, e1, e2]
    rw [hMdrop]
    set M2 := readSlice ind0 (begin_ + (sL + (l k).length))
      (left_cnt - (sL + (l k).length)) with hM2
    -- second write: the right chunk lands at the boundary before T
    have regroup2 : A ++ l k ++ (M2 ++ (Rk ++ T)) =
        (A ++ l k ++ M2 ++ Rk) ++ T := by
      simp [List.append_assoc]
    have hM2len : M2.length = left_cnt - (sL + (l k).length) := by
      rw [hM2]
      exact readSlice_length _ _ _ (by omega)
    have hBlen : (A ++ l k ++ M2 ++ Rk).length =
        begin_ + left_cnt + sR := by
      simp only [List.length_append, hAlen, hM2len, hRklen]
      omega
    have hb2 := listWriteAt_boundary (A ++ l k ++ M2 ++ Rk) T (r k)
    rw [hBlen] at hb2
    rw [regroup2, hb2]
    have hTdrop : T.drop (r k).length =
        ind0.drop (begin_ + left_cnt + (sR + (r k).length)) := by
      have e1 : begin_ + left_cnt + sR + (r k).length =
          begin_ + left_cnt + (sR + (r k).length) := by omega
      rw [hT, List.drop_drop, e1]
    rw [hTdrop]
    -- reassemble into the shape for k + 1
    rw [flatten_range_succ l k, flatten_range_succ r k, ← hsL1, ← hsR1]
    rw [hA, hM2, hRk]
    simp [List.append_assoc]

theorem mergeCopy_spec (tl tr ob lc rc lwp rwp : List Nat)
    (begin_ left_cnt n : Nat) (ind0 : List Nat) (l r : Nat → List Nat)
    (hdata : ∀ i, i < n →
      readSlice tl (ob.getD i 0) (lc.getD i 0) = l i ∧
      readSlice tr (ob.getD i 0) (rc.getD i 0) = r i)
    (hlwp : ∀ i, i < n →
      lwp.getD i 0 = ((List.range i).map fun j => (l j).length).sum)
    (hrwp : ∀ i, i < n →
      rwp.getD i 0 = ((List.range i).map fun j => (r j).length).sum)
    (hleft : left_cnt = ((List.range n).map fun j => (l j).length).sum)
    (hind : begin_ + left_cnt +
      ((List.range n).map fun j => (r j).length).sum ≤ ind0.length) :
    mergeCopy tl tr ob lc rc lwp rwp begin_ left_cnt n ind0 =
      ind0.take begin_ ++ ((List.range n).map l).flatten ++
        ((List.range n).map r).flatten ++
        ind0.drop (begin_ + left_cnt +
          ((List.range n).map fun j => (r j).length).sum) := by
  have h := mergeCopy_partial tl tr ob lc rc lwp rwp begin_ left_cnt n ind0
    l r hdata hlwp hrwp hleft hind n le_rfl
  have hmid : readSlice ind0
      (begin_ + ((List.range n).map fun j => (l j).length).sum)
      (left_cnt - ((List.range n).map fun j => (l j).length).sum) = [] := by
    rw [← hleft, Nat.sub_self]
    rfl
  unfold mergeCopy
  rw [h, hmid]
  simp [List.append_assoc]

theorem oracle_nil (o : List Nat → List Nat × List Nat)
    (Hlen : ∀ xs, ((o xs).1).length + ((o xs).2).length = xs.length) :
    (o []).1 = [] ∧ (o []).2 = [] := by
  have h := Hlen []
  simp only [List.length_nil] at h
  exact ⟨List.length_eq_zero.mp (by omega), List.length_eq_zero.mp (by omega)⟩

theorem sum_range_add (f g : Nat → Nat) (n : Nat) :
    ((List.range n).map fun j => f j + g j).sum =
      ((List.range n).map f).sum + ((List.range n).map g).sum := by
  induction n with
  | zero => rfl
  | succ n ih =>
    rw [sum_range_succ_nat, sum_range_succ_nat, sum_range_succ_nat, ih]
    omega

theorem slices_flatten (ind : List Nat) (b0 c0 bs nb : Nat)
    (hind : b0 + c0 ≤ ind.length) (hcov : c0 ≤ bs * nb) :
    ((List.range nb).map fun i =>
      readSlice ind (b0 + bs * i) (min c0 (bs * i + bs) - bs * i)).flatten =
      readSlice ind b0 c0 := by
  have hj := join_blocks_range b0 (b0 + c0) bs (by omega) nb
  have he : b0 + c0 - b0 = c0 := by omega
  rw [he] at hj
  have hm : min (bs * nb) c0 = c0 := by omega
  rw [hm] at hj
  rw [readSlice_eq_map ind b0 c0 (by omega), ← hj, List.map_flatten,
    List.map_map]
  congr 1
  apply List.map_eq_map_iff.mpr
  intro i hi
  show readSlice ind (b0 + bs * i) (min c0 (bs * i + bs) - bs * i) =
    (List.range' (b0 + bs * i)
      (min (b0 + c0) (b0 + bs * i + bs) - (b0 + bs * i))).map
      fun j => ind.getD j 0
  have harg : min (b0 + c0) (b0 + bs * i + bs) - (b0 + bs * i) =
      min c0 (bs * i + bs) - bs * i := by omega
  rw [harg]
  by_cases hz : min c0 (bs * i + bs) - bs * i = 0
  · rw [hz]
    rfl
  · exact readSlice_eq_map ind (b0 + bs * i) _ (by omega)

/-- The per-block left outputs of the oracle, written in terms of the block
geometry rather than through `forBlocks`; `splitLefts` unfolds to this (see
`splitLefts_eq`). -/
def splitLeftsAt (o : List Nat → List Nat × List Nat) (ind : List Nat)
    (b0 c0 bs nb : Nat) : List (List Nat) :=
  (List.range nb).map fun i =>
    (o (readSlice ind (b0 + bs * i) (min c0 (bs * i + bs) - bs * i))).1

/-- The per-block right outputs of the oracle, in block-geometry form. -/
def splitRightsAt (o : List Nat → List Nat × List Nat) (ind : List Nat)
    (b0 c0 bs nb : Nat) : List (List Nat) :=
  (List.range nb).map fun i =>
    (o (readSlice ind (b0 + bs * i) (min c0 (bs * i + bs) - bs * i))).2

theorem splitLefts_eq (o : List Nat → List Nat × List Nat)
    (T : Nat) (dp : DataPartition) (leaf : Nat) (b0 c0 nb bs : Nat)
    (hb0 : dp.leaf_begin.getD leaf 0 = b0)
    (hc0 : dp.leaf_count.getD leaf 0 = c0)
    (hnb : (Threading.BlockInfo T c0 1024).1 = nb)
    (hbs : (Threading.BlockInfo T c0 1024).2 = bs) :
    DataPartition.splitLefts o T dp leaf =
      splitLeftsAt o dp.indices b0 c0 bs nb := by
  unfold DataPartition.splitLefts splitLeftsAt
  rw [hb0, hc0, forBlocks_zero_start, hnb, hbs, blocksOf, List.map_map]
  rfl

theorem splitRights_eq (o : List Nat → List Nat × List Nat)
    (T : Nat) (dp : DataPartition) (leaf : Nat) (b0 c0 nb bs : Nat)
    (hb0 : dp.leaf_begin.getD leaf 0 = b0)
    (hc0 : dp.leaf_count.getD leaf 0 = c0)
    (hnb : (Threading.BlockInfo T c0 1024).1 = nb)
    (hbs : (Threading.BlockInfo T c0 1024).2 = bs) :
    DataPartition.splitRights o T dp leaf =
      splitRightsAt o dp.indices b0 c0 bs nb := by
  unfold DataPartition.splitRights splitRightsAt
  rw [hb0, hc0, forBlocks_zero_start, hnb, hbs, blocksOf, List.map_map]
  rfl

theorem Split_spec (o : List Nat → List Nat × List Nat)
    (Hlen : ∀ xs, ((o xs).1).length + ((o xs).2).length = xs.length)
    (T : Nat) (dp : DataPartition) (leaf rl : Nat) (b0 c0 nb bs : Nat)
    (hb0 : dp.leaf_begin.getD leaf 0 = b0)
    (hc0 : dp.leaf_count.getD leaf 0 = c0)
    (hnb : (Threading.BlockInfo T c0 1024).1 = nb)
    (hbs : (Threading.BlockInfo T c0 1024).2 = bs)
    (hT : 1 ≤ T) (hc : 0 < c0)
    (hind : b0 + c0 ≤ dp.indices.length)
    (htl : c0 ≤ dp.temp_left_indices.length)
    (htr : c0 ≤ dp.temp_right_indices.length)
    (hob : nb ≤ dp.offsets_buf.length)
    (hlcb : nb ≤ dp.left_cnts_buf.length)
    (hrcb : nb ≤ dp.right_cnts_buf.length)
    (hlwb : nb ≤ dp.left_write_pos_buf.length)
    (hrwb : nb ≤ dp.right_write_pos_buf.length) :
    ∃ dp2, DataPartition.Split o T dp leaf rl = some dp2 ∧
      dp2.indices = dp.indices.take b0 ++
        (splitLeftsAt o dp.indices b0 c0 bs nb).flatten ++
        (splitRightsAt o dp.indices b0 c0 bs nb).flatten ++
        dp.indices.drop (b0 + c0) ∧
      dp2.leaf_count = (dp.leaf_count.set leaf
          ((splitLeftsAt o dp.indices b0 c0 bs nb).flatten).length).set rl
          (c0 - ((splitLeftsAt o dp.indices b0 c0 bs nb).flatten).length) ∧
      dp2.leaf_begin = dp.leaf_begin.set rl
        (((splitLeftsAt o dp.indices b0 c0 bs nb).flatten).length + b0) ∧
      dp2.num_data = dp.num_data ∧
      dp2.num_leaves = dp.num_leaves ∧
      dp2.used_data_indices = dp.used_data_indices ∧
      dp2.num_threads = dp.num_threads ∧
      ((splitLeftsAt o dp.indices b0 c0 bs nb).flatten).length +
        ((splitRightsAt o dp.indices b0 c0 bs nb).flatten).length = c0 ∧
      dp2.indices.length = dp.indices.length ∧
      dp2.temp_left_indices.length = dp.temp_left_indices.length ∧
      dp2.temp_right_indices.length = dp.temp_right_indices.length ∧
      dp2.offsets_buf.length = dp.offsets_buf.length ∧
      dp2.left_cnts_buf.length = dp.left_cnts_buf.length ∧
      dp2.right_cnts_buf.length = dp.right_cnts_buf.length ∧
      dp2.left_write_pos_buf.length = dp.left_write_pos_buf.length ∧
      dp2.right_write_pos_buf.length = dp.right_write_pos_buf.length := by
  have honil := oracle_nil o Hlen
  have hnb1 : 1 ≤ nb := by
    rcases Nat.eq_zero_or_pos nb with h0 | h0
    · exfalso
      have hz : (Threading.BlockInfo T c0 1024).1 = 0 := by rw [hnb, h0]
      have := (BlockInfo_zero_iff T c0 1024 (by omega) hT).mp hz
      omega
    · exact h0
  have hcov : c0 ≤ bs * nb := by
    have h := BlockInfo_mul_ge T c0 1024 (by omega) hT
    rw [hnb, hbs, Nat.mul_comm] at h
    exact h
  have hFor : Threading.For T 0 c0 1024 (DataPartition.splitBlock o b0) dp =
      (nb, blocksFold o b0 (blocksOf bs c0 nb) dp) := by
    rw [For_splitBlock_eq, forBlocks_zero_start, hnb, hbs]
  obtain ⟨hI, hLB, hLC, hND, hNL, hUD, hNT, hLW, hRW, hTL, hTR, hOB, hLCB,
    hRCB, hfacts⟩ :=
    blocksFold_spec o Hlen b0 bs c0 dp hind htl htr nb
      (fun i hi => ⟨by omega, by omega, by omega⟩) _ rfl
  set dp1 := blocksFold o b0 (blocksOf bs c0 nb) dp with hdp1
  -- the merge reads exactly what the blocks wrote
  have hdata : ∀ i, i < nb →
      readSlice dp1.temp_left_indices (dp1.offsets_buf.getD i 0)
          (dp1.left_cnts_buf.getD i 0) =
        (o (readSlice dp.indices (b0 + bs * i)
          (min c0 (bs * i + bs) - bs * i))).1 ∧
      readSlice dp1.temp_right_indices (dp1.offsets_buf.getD i 0)
          (dp1.right_cnts_buf.getD i 0) =
        (o (readSlice dp.indices (b0 + bs * i)
          (min c0 (bs * i + bs) - bs * i))).2 := by
    intro i hi
    obtain ⟨f1, f2, f3, f4, f5⟩ := hfacts i hi
    by_cases hz : min c0 (bs * i + bs) - bs * i = 0
    · have hxs : readSlice dp.indices (b0 + bs * i)
          (min c0 (bs * i + bs) - bs * i) = [] := by rw [hz]; rfl
      rw [hxs] at f1 f2 ⊢
      rw [f1, f2, honil.1, honil.2]
      constructor <;> simp [readSlice]
    · rw [f3 hz, f1, f2]
      exact ⟨f4, f5⟩
  -- the write-position prefix sums
  obtain ⟨hwpl, hwpr, hwpf⟩ := writePosPhase_spec dp1.left_cnts_buf
    dp1.right_cnts_buf (dp1.left_write_pos_buf.set 0 0)
    (dp1.right_write_pos_buf.set 0 0) nb hnb1
    (by rw [List.length_set, hLW]; exact hlwb)
    (by rw [List.length_set, hRW]; exact hrwb)
    (getD_set_self _ _ _ (by rw [hLW]; omega))
    (getD_set_self _ _ _ (by rw [hRW]; omega))
  have hsum_l : ∀ i, i ≤ nb →
      ((List.range i).map fun j => dp1.left_cnts_buf.getD j 0).sum =
        ((List.range i).map fun j =>
          ((o (readSlice dp.indices (b0 + bs * j)
            (min c0 (bs * j + bs) - bs * j))).1).length).sum := by
    intro i hi
    congr 1
    apply List.map_eq_map_iff.mpr
    intro j hj
    exact (hfacts j (by have := List.mem_range.mp hj; omega)).1
  have hsum_r : ∀ i, i ≤ nb →
      ((List.range i).map fun j => dp1.right_cnts_buf.getD j 0).sum =
        ((List.range i).map fun j =>
          ((o (readSlice dp.indices (b0 + bs * j)
            (min c0 (bs * j + bs) - bs * j))).2).length).sum := by
    intro i hi
    congr 1
    apply List.map_eq_map_iff.mpr
    intro j hj
    exact (hfacts j (by have := List.mem_range.mp hj; omega)).2.1
  set wp := writePosPhase dp1.left_cnts_buf dp1.right_cnts_buf
    (dp1.left_write_pos_buf.set 0 0) (dp1.right_write_pos_buf.set 0 0) nb
    with hwpdef
  have hnbm : nb - 1 + 1 = nb := by omega
  have hlcval : wp.1.getD (nb - 1) 0 + dp1.left_cnts_buf.getD (nb - 1) 0 =
      ((List.range nb).map fun j =>
        ((o (readSlice dp.indices (b0 + bs * j)
          (min c0 (bs * j + bs) - bs * j))).1).length).sum := by
    rw [(hwpf (nb - 1) (by omega)).1, hsum_l (nb - 1) (by omega),
      (hfacts (nb - 1) (by omega)).1, ← sum_range_succ_nat _ (nb - 1), hnbm]
  -- totals
  have hslices := slices_flatten dp.indices b0 c0 bs nb hind hcov
  have htotal :
      ((List.range nb).map fun j =>
        ((o (readSlice dp.indices (b0 + bs * j)
          (min c0 (bs * j + bs) - bs * j))).1).length).sum +
      ((List.range nb).map fun j =>
        ((o (readSlice dp.indices (b0 + bs * j)
          (min c0 (bs * j + bs) - bs * j))).2).length).sum = c0 := by
    rw [← sum_range_add]
    have h1 : ((List.range nb).map fun j =>
        ((o (readSlice dp.indices (b0 + bs * j)
          (min c0 (bs * j + bs) - bs * j))).1).length +
        ((o (readSlice dp.indices (b0 + bs * j)
          (min c0 (bs * j + bs) - bs * j))).2).length).sum =
        ((List.range nb).map fun j =>
          (readSlice dp.indices (b0 + bs * j)
            (min c0 (bs * j + bs) - bs * j)).length).sum := by
      congr 1
      apply List.map_eq_map_iff.mpr
      intro j hj
      exact Hlen _
    rw [h1, ← flatten_range_len, hslices]
    exact readSlice_length _ _ _ (by omega)
  have hLlen : ((splitLeftsAt o dp.indices b0 c0 bs nb).flatten).length =
      ((List.range nb).map fun j =>
        ((o (readSlice dp.indices (b0 + bs * j)
          (min c0 (bs * j + bs) - bs * j))).1).length).sum :=
    flatten_range_len _ nb
  have hRlen : ((splitRightsAt o dp.indices b0 c0 bs nb).flatten).length =
      ((List.range nb).map fun j =>
        ((o (readSlice dp.indices (b0 + bs * j)
          (min c0 (bs * j + bs) - bs * j))).2).length).sum :=
    flatten_range_len _ nb
  -- the merge step
  have hindbound : b0 + (wp.1.getD (nb - 1) 0 +
      dp1.left_cnts_buf.getD (nb - 1) 0) +
      ((List.range nb).map fun j =>
        ((o (readSlice dp.indices (b0 + bs * j)
          (min c0 (bs * j + bs) - bs * j))).2).length).sum ≤
      dp1.indices.length := by
    rw [hI, hlcval]
    omega
  have hmerge := mergeCopy_spec dp1.temp_left_indices dp1.temp_right_indices
    dp1.offsets_buf dp1.left_cnts_buf dp1.right_cnts_buf wp.1 wp.2 b0
    (wp.1.getD (nb - 1) 0 + dp1.left_cnts_buf.getD (nb - 1) 0) nb dp1.indices
    (fun i => (o (readSlice dp.indices (b0 + bs * i)
      (min c0 (bs * i + bs) - bs * i))).1)
    (fun i => (o (readSlice dp.indices (b0 + bs * i)
      (min c0 (bs * i + bs) - bs * i))).2)
    hdata
    (fun i hi => ((hwpf i hi).1).trans (hsum_l i (by omega)))
    (fun i hi => ((hwpf i hi).2).trans (hsum_r i (by omega)))
    hlcval
    hindbound
  have hmerge2 : mergeCopy dp1.temp_left_indices dp1.temp_right_indices
      dp1.offsets_buf dp1.left_cnts_buf dp1.right_cnts_buf wp.1 wp.2 b0
      (wp.1.getD (nb - 1) 0 + dp1.left_cnts_buf.getD (nb - 1) 0) nb
      dp1.indices =
      dp1.indices.take b0 ++
        (splitLeftsAt o dp.indices b0 c0 bs nb).flatten ++
        (splitRightsAt o dp.indices b0 c0 bs nb).flatten ++
        dp1.indices.drop (b0 + (wp.1.getD (nb - 1) 0 +
          dp1.left_cnts_buf.getD (nb - 1) 0) +
          ((List.range nb).map fun j =>
            ((o (readSlice dp.indices (b0 + bs * j)
              (min c0 (bs * j + bs) - bs * j))).2).length).sum) := hmerge
  have hdropa : b0 + (wp.1.getD (nb - 1) 0 +
      dp1.left_cnts_buf.getD (nb - 1) 0) +
      ((List.range nb).map fun j =>
        ((o (readSlice dp.indices (b0 + bs * j)
          (min c0 (bs * j + bs) - bs * j))).2).length).sum = b0 + c0 := by
    rw [hlcval]
    omega
  have hmerge3 : mergeCopy dp1.temp_left_indices dp1.temp_right_indices
      dp1.offsets_buf dp1.left_cnts_buf dp1.right_cnts_buf wp.1 wp.2 b0
      (wp.1.getD (nb - 1) 0 + dp1.left_cnts_buf.getD (nb - 1) 0) nb
      dp1.indices =
      dp.indices.take b0 ++
        (splitLeftsAt o dp.indices b0 c0 bs nb).flatten ++
        (splitRightsAt o dp.indices b0 c0 bs nb).flatten ++
        dp.indices.drop (b0 + c0) := by
    rw [hmerge2, hI, hdropa]
  -- assemble the result record
  refine ⟨{ dp1 with
      indices := mergeCopy dp1.temp_left_indices dp1.temp_right_indices
        dp1.offsets_buf dp1.left_cnts_buf dp1.right_cnts_buf wp.1 wp.2 b0
        (wp.1.getD (nb - 1) 0 + dp1.left_cnts_buf.getD (nb - 1) 0) nb
        dp1.indices
      left_write_pos_buf := wp.1
      right_write_pos_buf := wp.2
      leaf_count := (dp1.leaf_count.set leaf (wp.1.getD (nb - 1) 0 +
        dp1.left_cnts_buf.getD (nb - 1) 0)).set rl
        (c0 - (wp.1.getD (nb - 1) 0 + dp1.left_cnts_buf.getD (nb - 1) 0))
      leaf_begin := dp1.leaf_begin.set rl ((wp.1.getD (nb - 1) 0 +
        dp1.left_cnts_buf.getD (nb - 1) 0) + b0) },
    ?_, ?_, ?_, ?_, ?_, ?_, ?_, ?_, ?_, ?_, ?_, ?_, ?_, ?_, ?_, ?_, ?_⟩
  · show DataPartition.Split o T dp leaf rl = _
    simp only [DataPartition.Split]
    rw [hb0, hc0, hFor]
    rw [if_neg (by omega : ¬ nb = 0)]
  · show (mergeCopy dp1.temp_left_indices dp1.temp_right_indices
      dp1.offsets_buf dp1.left_cnts_buf dp1.right_cnts_buf wp.1 wp.2 b0
      (wp.1.getD (nb - 1) 0 + dp1.left_cnts_buf.getD (nb - 1) 0) nb
      dp1.indices) = _
    exact hmerge3
  · show (dp1.leaf_count.set leaf (wp.1.getD (nb - 1) 0 +
      dp1.left_cnts_buf.getD (nb - 1) 0)).set rl
      (c0 - (wp.1.getD (nb - 1) 0 +
        dp1.left_cnts_buf.getD (nb - 1) 0)) = _
    rw [hLC, hlcval, ← hLlen]
  · show dp1.leaf_begin.set rl ((wp.1.getD (nb - 1) 0 +
      dp1.left_cnts_buf.getD (nb - 1) 0) + b0) = _
    rw [hLB, hlcval, ← hLlen]
  · exact hND
  · exact hNL
  · exact hUD
  · exact hNT
  · rw [hLlen, hRlen]
    exact htotal
  · show (mergeCopy dp1.temp_left_indices dp1.temp_right_indices
      dp1.offsets_buf dp1.left_cnts_buf dp1.right_cnts_buf wp.1 wp.2 b0
      (wp.1.getD (nb - 1) 0 + dp1.left_cnts_buf.getD (nb - 1) 0) nb
      dp1.indices).length = dp.indices.length
    rw [hmerge3]
    simp only [List.length_append, List.length_take, List.length_drop]
    omega
  · exact hTL
  · exact hTR
  · exact hOB
  · exact hLCB
  · exact hRCB
  · show wp.1.length = dp.left_write_pos_buf.length
    rw [hwpl, List.length_set, hLW]
  · show wp.2.length = dp.right_write_pos_buf.length
    rw [hwpr, List.length_set, hRW]

theorem getD_append_left (A B : List Nat) (j : Nat) (h : j < A.length) :
    (A ++ B).getD j 0 = A.getD j 0 := by
  simp [List.getD_eq_getElem?_getD, List.getElem?_append_left h]

theorem getD_append_right (A B : List Nat) (j : Nat) (h : A.length ≤ j) :
    (A ++ B).getD j 0 = B.getD (j - A.length) 0 := by
  simp [List.getD_eq_getElem?_getD, List.getElem?_append_right h]

theorem readSlice_append_exact (A B C : List Nat) :
    readSlice (A ++ B ++ C) A.length B.length = B := by
  rw [List.append_assoc]
  simp only [readSlice, List.drop_left, List.take_left]

theorem flatten_map_sublist (f g : Nat → List Nat) (n : Nat)
    (h : ∀ i, i < n → (f i).Sublist (g i)) :
    (((List.range n).map f).flatten).Sublist
      (((List.range n).map g).flatten) := by
  induction n with
  | zero => exact List.Sublist.refl _
  | succ n ih =>
    rw [flatten_range_succ, flatten_range_succ]
    exact List.Sublist.append (ih fun i hi => h i (by omega)) (h n (by omega))

theorem oracleOfPred_len (p : Nat → Bool) (xs : List Nat) :
    ((oracleOfPred p xs).1).length + ((oracleOfPred p xs).2).length =
      xs.length := by
  simp only [oracleOfPred]
  exact (List.length_eq_length_filter_add _).symm

theorem oracleOfPred_sub (p : Nat → Bool) (xs : List Nat) :
    ((oracleOfPred p xs).1).Sublist xs ∧
      ((oracleOfPred p xs).2).Sublist xs :=
  ⟨List.filter_sublist xs, List.filter_sublist xs⟩

theorem oracleOfPred_perm (p : Nat → Bool) (xs : List Nat) :
    ((oracleOfPred p xs).1 ++ (oracleOfPred p xs).2).Perm xs :=
  List.filter_append_perm p xs

theorem Split_none_of_empty (o : List Nat → List Nat × List Nat) (T : Nat)
    (hT : 1 ≤ T) (dp : DataPartition) (leaf rl : Nat)
    (hcnt : dp.leaf_count.getD leaf 0 = 0) :
    DataPartition.Split o T dp leaf rl = none := by
  unfold DataPartition.Split
  have hz : (Threading.BlockInfo T (dp.leaf_count.getD leaf 0 - 0) 1024).1
      = 0 := by
    rw [hcnt]
    exact (BlockInfo_zero_iff T 0 1024 (by omega) hT).mpr rfl
  simp only [Threading.For, hz, if_pos rfl]
  rfl

end SplitProof

/-- C3: for every `Split` on a leaf whose range `[begin, begin + cnt)` has
`cnt > 0`, letting `total_left_count` be the sum of the per-block left
counts returned by the oracle, afterwards
`leaf_count[leaf] = total_left_count`,
`leaf_begin[right_leaf] = begin + total_left_count`,
`leaf_count[right_leaf] = cnt - total_left_count`, and `leaf_begin[leaf]`
still equals `begin`. -/
theorem C3_split_bookkeeping (o : List Nat → List Nat × List Nat)
    (Hlen : ∀ xs, ((o xs).1).length + ((o xs).2).length = xs.length)
    (T : Nat) (dp : DataPartition) (leaf rl : Nat)
    (hT : 1 ≤ T) (hne : leaf ≠ rl)
    (hc : 0 < dp.leaf_count.getD leaf 0)
    (hind : dp.leaf_begin.getD leaf 0 + dp.leaf_count.getD leaf 0 ≤
      dp.indices.length)
    (htl : dp.leaf_count.getD leaf 0 ≤ dp.temp_left_indices.length)
    (htr : dp.leaf_count.getD leaf 0 ≤ dp.temp_right_indices.length)
    (hbuf : T ≤ dp.offsets_buf.length ∧ T ≤ dp.left_cnts_buf.length ∧
      T ≤ dp.right_cnts_buf.length ∧ T ≤ dp.left_write_pos_buf.length ∧
      T ≤ dp.right_write_pos_buf.length)
    (hleaf : leaf < dp.leaf_count.length)
    (hrl1 : rl < dp.leaf_count.length)
    (hrl2 : rl < dp.leaf_begin.length) :
    ∃ dp2, DataPartition.Split o T dp leaf rl = some dp2 ∧
      dp2.leaf_count.getD leaf 0 =
        ((DataPartition.splitLefts o T dp leaf).map List.length).sum ∧
      dp2.leaf_begin.getD rl 0 = dp.leaf_begin.getD leaf 0 +
        ((DataPartition.splitLefts o T dp leaf).map List.length).sum ∧
      dp2.leaf_count.getD rl 0 = dp.leaf_count.getD leaf 0 -
        ((DataPartition.splitLefts o T dp leaf).map List.length).sum ∧
      dp2.leaf_begin.getD leaf 0 = dp.leaf_begin.getD leaf 0 := by
  have hnbT := BlockInfo_nblock_le T (dp.leaf_count.getD leaf 0) 1024
  obtain ⟨hb1, hb2, hb3, hb4, hb5⟩ := hbuf
  obtain ⟨dp2, hS, hInd, hLC, hLB, _, _, _, _, hTot, _⟩ :=
    Split_spec o Hlen T dp leaf rl _ _ _ _ rfl rfl rfl rfl hT hc hind htl htr
      (by omega) (by omega) (by omega) (by omega) (by omega)
  have hLn : ((DataPartition.splitLefts o T dp leaf).map List.length).sum =
      ((splitLeftsAt o dp.indices (dp.leaf_begin.getD leaf 0)
        (dp.leaf_count.getD leaf 0)
        (Threading.BlockInfo T (dp.leaf_count.getD leaf 0) 1024).2
        (Threading.BlockInfo T
          (dp.leaf_count.getD leaf 0) 1024).1).flatten).length := by
    rw [splitLefts_eq o T dp leaf _ _ _ _ rfl rfl rfl rfl,
      List.length_flatten]
  refine ⟨dp2, hS, ?_, ?_, ?_, ?_⟩
  · rw [hLC, hLn, getD_set_ne _ rl leaf _ (fun h => hne h.symm),
      getD_set_self _ _ _ hleaf]
  · rw [hLB, hLn, getD_set_self _ _ _ hrl2, Nat.add_comm]
  · rw [hLC, hLn, getD_set_self _ _ _ (by rw [List.length_set]; exact hrl1)]
  · rw [hLB, getD_set_ne _ rl leaf _ (fun h => hne h.symm)]

/-- The five-example state of the spec's stability test: one store whose
root leaf holds `[5, 2, 9, 1, 7]`, with two worker threads. -/
def dpStab : DataPartition where
  num_data := 5
  num_leaves := 2
  leaf_begin := [0, 0]
  leaf_count := [5, 0]
  indices := [5, 2, 9, 1, 7]
  temp_left_indices := [0, 0, 0, 0, 0]
  temp_right_indices := [0, 0, 0, 0, 0]
  used_data_indices := none
  num_threads := 2
  offsets_buf := [0, 0]
  left_cnts_buf := [0, 0]
  right_cnts_buf := [0, 0]
  left_write_pos_buf := [0, 0]
  right_write_pos_buf := [0, 0]

/-- C3 witness: the leaf `[5, 2, 9, 1, 7]` split with an even-ids-left
oracle under two worker threads routes one id left. -/
theorem C3_split_bookkeeping_witness :
    ∃ dp2, DataPartition.Split (oracleOfPred fun x => x % 2 == 0) 2
        dpStab 0 1 = some dp2 ∧
      dp2.leaf_count.getD 0 0 = 1 ∧ dp2.leaf_begin.getD 1 0 = 1 ∧
      dp2.leaf_count.getD 1 0 = 4 ∧ dp2.leaf_begin.getD 0 0 = 0 := by
  obtain ⟨dp2, hS, h1, h2, h3, h4⟩ := C3_split_bookkeeping
    (oracleOfPred fun x => x % 2 == 0)
    (fun xs => oracleOfPred_len _ xs) 2 dpStab 0 1 (by omega) (by decide)
    (by decide) (by decide) (by decide) (by decide) (by decide) (by decide)
    (by decide) (by decide)
  refine ⟨dp2, hS, ?_, ?_, ?_, ?_⟩
  · rw [h1]; decide
  · rw [h2]; decide
  · rw [h3]; decide
  · rw [h4]; decide

/-- C9: a `Split` of a leaf with range `[begin, begin + cnt)`, `cnt > 0`,
changes no element of `indices` outside that range, leaves `leaf_begin` and
`leaf_count` of every leaf other than `leaf` and `right_leaf` unchanged, and
leaves `num_data`, `num_leaves` and the bagging reference unchanged. -/
theorem C9_split_frame (o : List Nat → List Nat × List Nat)
    (Hlen : ∀ xs, ((o xs).1).length + ((o xs).2).length = xs.length)
    (T : Nat) (dp : DataPartition) (leaf rl : Nat)
    (hT : 1 ≤ T) (hne : leaf ≠ rl)
    (hc : 0 < dp.leaf_count.getD leaf 0)
    (hind : dp.leaf_begin.getD leaf 0 + dp.leaf_count.getD leaf 0 ≤
      dp.indices.length)
    (htl : dp.leaf_count.getD leaf 0 ≤ dp.temp_left_indices.length)
    (htr : dp.leaf_count.getD leaf 0 ≤ dp.temp_right_indices.length)
    (hbuf : T ≤ dp.offsets_buf.length ∧ T ≤ dp.left_cnts_buf.length ∧
      T ≤ dp.right_cnts_buf.length ∧ T ≤ dp.left_write_pos_buf.length ∧
      T ≤ dp.right_write_pos_buf.length) :
    ∃ dp2, DataPartition.Split o T dp leaf rl = some dp2 ∧
      (∀ j, j < dp.leaf_begin.getD leaf 0 ∨
          dp.leaf_begin.getD leaf 0 + dp.leaf_count.getD leaf 0 ≤ j →
        dp2.indices.getD j 0 = dp.indices.getD j 0) ∧
      dp2.indices.length = dp.indices.length ∧
      (∀ l, l ≠ leaf → l ≠ rl →
        dp2.leaf_begin.getD l 0 = dp.leaf_begin.getD l 0 ∧
        dp2.leaf_count.getD l 0 = dp.leaf_count.getD l 0) ∧
      dp2.num_data = dp.num_data ∧
      dp2.num_leaves = dp.num_leaves ∧
      dp2.used_data_indices = dp.used_data_indices := by
  have hnbT := BlockInfo_nblock_le T (dp.leaf_count.getD leaf 0) 1024
  obtain ⟨hb1, hb2, hb3, hb4, hb5⟩ := hbuf
  obtain ⟨dp2, hS, hInd, hLC, hLB, hND, hNL, hUD, _, hTot, hIL, _⟩ :=
    Split_spec o Hlen T dp leaf rl _ _ _ _ rfl rfl rfl rfl hT hc hind htl htr
      (by omega) (by omega) (by omega) (by omega) (by omega)
  set b0 := dp.leaf_begin.getD leaf 0 with hb0
  set c0 := dp.leaf_count.getD leaf 0 with hc0
  set Lf := (splitLeftsAt o dp.indices b0 c0
    (Threading.BlockInfo T c0 1024).2
    (Threading.BlockInfo T c0 1024).1).flatten with hLf
  set Rf := (splitRightsAt o dp.indices b0 c0
    (Threading.BlockInfo T c0 1024).2
    (Threading.BlockInfo T c0 1024).1).flatten with hRf
  have htk : (dp.indices.take b0).length = b0 := by
    rw [List.length_take]
    omega
  refine ⟨dp2, hS, ?_, hIL, ?_, hND, hNL, hUD⟩
  · intro j hj
    rcases hj with hj | hj
    · rw [hInd, List.append_assoc, List.append_assoc,
        getD_append_left _ _ j (by rw [htk]; omega)]
      simp [List.getD_eq_getElem?_getD,
        List.getElem?_take_of_lt (show j < b0 by omega)]
    · have hlen3 : ((dp.indices.take b0 ++ Lf) ++ Rf).length = b0 + c0 := by
        simp only [List.length_append, htk]
        omega
      rw [hInd, getD_append_right _ _ j (by rw [hlen3]; omega), hlen3]
      simp only [List.getD_eq_getElem?_getD, List.getElem?_drop]
      rw [show b0 + c0 + (j - (b0 + c0)) = j by omega]
  · intro l hl1 hl2
    constructor
    · rw [hLB, getD_set_ne _ rl l _ (fun h => hl2 h.symm)]
    · rw [hLC, getD_set_ne _ rl l _ (fun h => hl2 h.symm),
        getD_set_ne _ leaf l _ (fun h => hl1 h.symm)]

/-- A three-leaf variant of the stability state, with leaf 0 holding
`[2, 9, 1, 7]` starting at position 1 (position 0 is outside every range
under scrutiny). -/
def dpFrame : DataPartition :=
  { dpStab with
    num_leaves := 3
    leaf_begin := [1, 0, 0]
    leaf_count := [4, 0, 0] }

/-- C9 witness: splitting the leaf of `dpFrame` leaves leaf 2's
bookkeeping and the out-of-range element `indices[0]` untouched. -/
theorem C9_split_frame_witness :
    ∃ dp2, DataPartition.Split (oracleOfPred fun x => x % 2 == 0) 2
        dpFrame 0 1 = some dp2 ∧
      dp2.indices.getD 0 0 = 5 ∧ dp2.indices.length = 5 ∧
      dp2.leaf_begin.getD 2 0 = 0 ∧ dp2.leaf_count.getD 2 0 = 0 ∧
      dp2.num_data = 5 ∧ dp2.used_data_indices = none := by
  obtain ⟨dp2, hS, hOut, hLen, hOther, hND, hNL, hUD⟩ := C9_split_frame
    (oracleOfPred fun x => x % 2 == 0)
    (fun xs => oracleOfPred_len _ xs) 2 dpFrame 0 1
    (by omega) (by decide) (by decide) (by decide) (by decide) (by decide)
    (by decide)
  obtain ⟨hO1, hO2⟩ := hOther 2 (by decide) (by decide)
  refine ⟨dp2, hS, ?_, ?_, ?_, ?_, ?_, ?_⟩
  · rw [hOut 0 (by decide)]; decide
  · rw [hLen]; decide
  · rw [hO1]; decide
  · rw [hO2]; decide
  · rw [hND]; decide
  · rw [hUD]; decide

/-- C2: for every oracle that partitions each given slice without
reordering the ids it keeps on the same side, and any number of worker
blocks (any ambient thread count `T >= 1`), after `Split` the ids of the
new range of `leaf` form a subsequence of the parent range's ids (same
relative order), and likewise for the range of `right_leaf`. -/
theorem C2_split_stability (o : List Nat → List Nat × List Nat)
    (Hlen : ∀ xs, ((o xs).1).length + ((o xs).2).length = xs.length)
    (Hsub : ∀ xs, ((o xs).1).Sublist xs ∧ ((o xs).2).Sublist xs)
    (T : Nat) (dp : DataPartition) (leaf rl : Nat)
    (hT : 1 ≤ T) (hne : leaf ≠ rl)
    (hc : 0 < dp.leaf_count.getD leaf 0)
    (hind : dp.leaf_begin.getD leaf 0 + dp.leaf_count.getD leaf 0 ≤
      dp.indices.length)
    (htl : dp.leaf_count.getD leaf 0 ≤ dp.temp_left_indices.length)
    (htr : dp.leaf_count.getD leaf 0 ≤ dp.temp_right_indices.length)
    (hbuf : T ≤ dp.offsets_buf.length ∧ T ≤ dp.left_cnts_buf.length ∧
      T ≤ dp.right_cnts_buf.length ∧ T ≤ dp.left_write_pos_buf.length ∧
      T ≤ dp.right_write_pos_buf.length)
    (hleaf : leaf < dp.leaf_count.length)
    (hlb : leaf < dp.leaf_begin.length)
    (hrl1 : rl < dp.leaf_count.length)
    (hrl2 : rl < dp.leaf_begin.length) :
    ∃ dp2, DataPartition.Split o T dp leaf rl = some dp2 ∧
      (readSlice dp2.indices (dp2.leaf_begin.getD leaf 0)
        (dp2.leaf_count.getD leaf 0)).Sublist
        (readSlice dp.indices (dp.leaf_begin.getD leaf 0)
          (dp.leaf_count.getD leaf 0)) ∧
      (readSlice dp2.indices (dp2.leaf_begin.getD rl 0)
        (dp2.leaf_count.getD rl 0)).Sublist
        (readSlice dp.indices (dp.leaf_begin.getD leaf 0)
          (dp.leaf_count.getD leaf 0)) := by
  have hnbT := BlockInfo_nblock_le T (dp.leaf_count.getD leaf 0) 1024
  obtain ⟨hb1, hb2, hb3, hb4, hb5⟩ := hbuf
  obtain ⟨dp2, hS, hInd, hLC, hLB, _, _, _, _, hTot, _⟩ :=
    Split_spec o Hlen T dp leaf rl _ _ _ _ rfl rfl rfl rfl hT hc hind htl htr
      (by omega) (by omega) (by omega) (by omega) (by omega)
  set b0 := dp.leaf_begin.getD leaf 0 with hb0
  set c0 := dp.leaf_count.getD leaf 0 with hc0
  set nb := (Threading.BlockInfo T c0 1024).1 with hnb
  set bs := (Threading.BlockInfo T c0 1024).2 with hbs
  set Lf := (splitLeftsAt o dp.indices b0 c0 bs nb).flatten with hLf
  set Rf := (splitRightsAt o dp.indices b0 c0 bs nb).flatten with hRf
  have hcov : c0 ≤ bs * nb := by
    have h := BlockInfo_mul_ge T c0 1024 (by omega) hT
    rw [Nat.mul_comm] at h
    exact h
  have htk : (dp.indices.take b0).length = b0 := by
    rw [List.length_take]
    omega
  -- the two output ranges hold exactly the concatenated block outputs
  have hbegin2 : dp2.leaf_begin.getD leaf 0 = b0 := by
    rw [hLB, getD_set_ne _ rl leaf _ (fun h => hne h.symm)]
  have hcount2 : dp2.leaf_count.getD leaf 0 = Lf.length := by
    rw [hLC, getD_set_ne _ rl leaf _ (fun h => hne h.symm),
      getD_set_self _ _ _ hleaf]
  have hbeginr : dp2.leaf_begin.getD rl 0 = Lf.length + b0 := by
    rw [hLB, getD_set_self _ _ _ hrl2]
  have hcountr : dp2.leaf_count.getD rl 0 = c0 - Lf.length := by
    rw [hLC, getD_set_self _ _ _ (by rw [List.length_set]; exact hrl1)]
  have hleftSlice : readSlice dp2.indices b0 Lf.length = Lf := by
    rw [hInd]
    have h := readSlice_append_exact (dp.indices.take b0) Lf
      (Rf ++ dp.indices.drop (b0 + c0))
    rw [htk] at h
    rw [show dp.indices.take b0 ++ Lf ++ Rf ++ dp.indices.drop (b0 + c0) =
      dp.indices.take b0 ++ Lf ++ (Rf ++ dp.indices.drop (b0 + c0)) by
      simp [List.append_assoc]]
    exact h
  have hrightSlice : readSlice dp2.indices (Lf.length + b0) (c0 - Lf.length) =
      Rf := by
    rw [hInd]
    have h := readSlice_append_exact (dp.indices.take b0 ++ Lf) Rf
      (dp.indices.drop (b0 + c0))
    rw [List.length_append, htk] at h
    rw [show b0 + Lf.length = Lf.length + b0 from Nat.add_comm _ _] at h
    rw [show c0 - Lf.length = Rf.length by omega]
    exact h
  -- each side is a subsequence of the parent slice
  have hslices := slices_flatten dp.indices b0 c0 bs nb hind hcov
  have hLsub : Lf.Sublist (readSlice dp.indices b0 c0) := by
    rw [← hslices, hLf]
    exact flatten_map_sublist _ _ nb fun i hi => (Hsub _).1
  have hRsub : Rf.Sublist (readSlice dp.indices b0 c0) := by
    rw [← hslices, hRf]
    exact flatten_map_sublist _ _ nb fun i hi => (Hsub _).2
  refine ⟨dp2, hS, ?_, ?_⟩
  · rw [hbegin2, hcount2, hleftSlice]
    exact hLsub
  · rw [hbeginr, hcountr, hrightSlice]
    exact hRsub

/-- C2 witness: the spec's stability example — `[5, 2, 9, 1, 7]` with an
even-ids-left oracle yields left `[2]` and right `[5, 9, 1, 7]`, both
order-preserved. -/
theorem C2_split_stability_witness :
    ∃ dp2, DataPartition.Split (oracleOfPred fun x => x % 2 == 0) 2
        dpStab 0 1 = some dp2 ∧
      readSlice dp2.indices (dp2.leaf_begin.getD 0 0)
        (dp2.leaf_count.getD 0 0) = [2] ∧
      readSlice dp2.indices (dp2.leaf_begin.getD 1 0)
        (dp2.leaf_count.getD 1 0) = [5, 9, 1, 7] ∧
      ([2] : List Nat).Sublist [5, 2, 9, 1, 7] ∧
      ([5, 9, 1, 7] : List Nat).Sublist [5, 2, 9, 1, 7] := by
  obtain ⟨dp2, hS, hL, hR⟩ := C2_split_stability
    (oracleOfPred fun x => x % 2 == 0)
    (fun xs => oracleOfPred_len _ xs)
    (fun xs => oracleOfPred_sub _ xs) 2 dpStab 0 1
    (by omega) (by decide) (by decide) (by decide) (by decide) (by decide)
    (by decide) (by decide) (by decide) (by decide) (by decide)
  have hq : DataPartition.Split (oracleOfPred fun x => x % 2 == 0) 2
      dpStab 0 1 = some dp2 := hS
  refine ⟨dp2, hS, ?_, ?_, by decide, by decide⟩
  · revert hL
    rw [show dp2 = (match DataPartition.Split
      (oracleOfPred fun x => x % 2 == 0) 2 dpStab 0 1 with
      | some d => d | none => dpStab) by rw [hq]]
    decide
  · revert hR
    rw [show dp2 = (match DataPartition.Split
      (oracleOfPred fun x => x % 2 == 0) 2 dpStab 0 1 with
      | some d => d | none => dpStab) by rw [hq]]
    decide

/-- C7: the observable outcome of a `Split` (the permutation in `indices`
and the leaf bookkeeping) never depends on what the scratch state held when
the call started: the temp buffers, the (possibly stale) `offsets_buf`,
and the other per-block bookkeeping buffers may hold arbitrary leftovers of
a previous call, and the result is the same — every scratch element the
merge step reads was written earlier in the same call. -/
theorem C7_scratch_write_before_read (o : List Nat → List Nat × List Nat)
    (Hlen : ∀ xs, ((o xs).1).length + ((o xs).2).length = xs.length)
    (T : Nat) (dp : DataPartition) (leaf rl : Nat)
    (hT : 1 ≤ T)
    (hind : dp.leaf_begin.getD leaf 0 + dp.leaf_count.getD leaf 0 ≤
      dp.indices.length)
    (htl : dp.leaf_count.getD leaf 0 ≤ dp.temp_left_indices.length)
    (htr : dp.leaf_count.getD leaf 0 ≤ dp.temp_right_indices.length)
    (hbuf : T ≤ dp.offsets_buf.length ∧ T ≤ dp.left_cnts_buf.length ∧
      T ≤ dp.right_cnts_buf.length ∧ T ≤ dp.left_write_pos_buf.length ∧
      T ≤ dp.right_write_pos_buf.length)
    (tl2 tr2 ob2 lc2 rc2 lw2 rw2 : List Nat)
    (e1 : tl2.length = dp.temp_left_indices.length)
    (e2 : tr2.length = dp.temp_right_indices.length)
    (e3 : ob2.length = dp.offsets_buf.length)
    (e4 : lc2.length = dp.left_cnts_buf.length)
    (e5 : rc2.length = dp.right_cnts_buf.length)
    (e6 : lw2.length = dp.left_write_pos_buf.length)
    (e7 : rw2.length = dp.right_write_pos_buf.length) :
    (DataPartition.Split o T dp leaf rl).map
        (fun d => (d.indices, d.leaf_begin, d.leaf_count)) =
      (DataPartition.Split o T
        { dp with
          temp_left_indices := tl2
          temp_right_indices := tr2
          offsets_buf := ob2
          left_cnts_buf := lc2
          right_cnts_buf := rc2
          left_write_pos_buf := lw2
          right_write_pos_buf := rw2 } leaf rl).map
        (fun d => (d.indices, d.leaf_begin, d.leaf_count)) := by
  have hnbT := BlockInfo_nblock_le T (dp.leaf_count.getD leaf 0) 1024
  obtain ⟨hb1, hb2, hb3, hb4, hb5⟩ := hbuf
  by_cases hc : dp.leaf_count.getD leaf 0 = 0
  · rw [Split_none_of_empty o T hT dp leaf rl hc]
    rw [Split_none_of_empty o T hT
      { dp with
        temp_left_indices := tl2
        temp_right_indices := tr2
        offsets_buf := ob2
        left_cnts_buf := lc2
        right_cnts_buf := rc2
        left_write_pos_buf := lw2
        right_write_pos_buf := rw2 } leaf rl hc]
  · obtain ⟨dp2, hS, hInd, hLC, hLB, _⟩ :=
      Split_spec o Hlen T dp leaf rl _ _ _ _ rfl rfl rfl rfl hT
        (by omega) hind htl htr (by omega) (by omega) (by omega) (by omega)
        (by omega)
    obtain ⟨dp2', hS', hInd', hLC', hLB', _⟩ :=
      Split_spec o Hlen T
        { dp with
          temp_left_indices := tl2
          temp_right_indices := tr2
          offsets_buf := ob2
          left_cnts_buf := lc2
          right_cnts_buf := rc2
          left_write_pos_buf := lw2
          right_write_pos_buf := rw2 } leaf rl
        (dp.leaf_begin.getD leaf 0) (dp.leaf_count.getD leaf 0)
        (Threading.BlockInfo T (dp.leaf_count.getD leaf 0) 1024).1
        (Threading.BlockInfo T (dp.leaf_count.getD leaf 0) 1024).2
        rfl rfl rfl rfl hT (by omega) hind
        (show dp.leaf_count.getD leaf 0 ≤ tl2.length by omega)
        (show dp.leaf_count.getD leaf 0 ≤ tr2.length by omega)
        (show (Threading.BlockInfo T (dp.leaf_count.getD leaf 0) 1024).1 ≤
          ob2.length by omega)
        (show (Threading.BlockInfo T (dp.leaf_count.getD leaf 0) 1024).1 ≤
          lc2.length by omega)
        (show (Threading.BlockInfo T (dp.leaf_count.getD leaf 0) 1024).1 ≤
          rc2.length by omega)
        (show (Threading.BlockInfo T (dp.leaf_count.getD leaf 0) 1024).1 ≤
          lw2.length by omega)
        (show (Threading.BlockInfo T (dp.leaf_count.getD leaf 0) 1024).1 ≤
          rw2.length by omega)
    rw [hS, hS']
    have h1 : dp2.indices = dp2'.indices := by
      rw [hInd, hInd']
    have h2 : dp2.leaf_begin = dp2'.leaf_begin := by
      rw [hLB, hLB']
    have h3 : dp2.leaf_count = dp2'.leaf_count := by
      rw [hLC, hLC']
    rw [Option.map_some', Option.map_some', h1, h2, h3]

/-- C7 witness: splitting the stability state with fully garbled scratch
buffers produces the same observable result. -/
theorem C7_scratch_write_before_read_witness :
    (DataPartition.Split (oracleOfPred fun x => x % 2 == 0) 2 dpStab 0 1).map
        (fun d => (d.indices, d.leaf_begin, d.leaf_count)) =
      (DataPartition.Split (oracleOfPred fun x => x % 2 == 0) 2
        { dpStab with
          temp_left_indices := [9, 9, 9, 9, 9]
          temp_right_indices := [8, 8, 8, 8, 8]
          offsets_buf := [7, 7]
          left_cnts_buf := [6, 6]
          right_cnts_buf := [5, 5]
          left_write_pos_buf := [4, 4]
          right_write_pos_buf := [3, 3] } 0 1).map
        (fun d => (d.indices, d.leaf_begin, d.leaf_count)) :=
  C7_scratch_write_before_read (oracleOfPred fun x => x % 2 == 0)
    (fun xs => oracleOfPred_len _ xs) 2 dpStab 0 1 (by omega) (by decide)
    (by decide) (by decide) (by decide)
    [9, 9, 9, 9, 9] [8, 8, 8, 8, 8] [7, 7] [6, 6] [5, 5] [4, 4] [3, 3]
    (by decide) (by decide) (by decide) (by decide) (by decide) (by decide)
    (by decide)

section InitProof

theorem getD_replicate_zero (m l : Nat) :
    (List.replicate m 0).getD l 0 = 0 := by
  simp only [List.getD_eq_getElem?_getD, List.getElem?_replicate]
  split <;> rfl

theorem sum_single (n c : Nat) (hn : 1 ≤ n) (f : Nat → Nat) (h0 : f 0 = c)
    (hother : ∀ l, l ≠ 0 → f l = 0) :
    ((List.range n).map f).sum = c := by
  induction n with
  | zero => omega
  | succ n ih =>
    rcases Nat.eq_zero_or_pos n with h | h
    · subst h
      rw [sum_range_succ_nat, h0]
      simp
    · rw [sum_range_succ_nat, ih (by omega), hother n (by omega)]
      omega

theorem Init_fields_none (dp : DataPartition)
    (h : dp.used_data_indices = none) :
    dp.Init.leaf_begin = List.replicate dp.leaf_begin.length 0 ∧
    dp.Init.leaf_count =
      (List.replicate dp.leaf_count.length 0).set 0 dp.num_data ∧
    dp.Init.indices = List.range dp.num_data ++
      dp.indices.drop dp.num_data ∧
    dp.Init.used_data_indices = none ∧
    dp.Init.num_data = dp.num_data ∧
    dp.Init.num_leaves = dp.num_leaves ∧
    dp.Init.temp_left_indices = dp.temp_left_indices ∧
    dp.Init.temp_right_indices = dp.temp_right_indices ∧
    dp.Init.num_threads = dp.num_threads ∧
    dp.Init.offsets_buf = dp.offsets_buf ∧
    dp.Init.left_cnts_buf = dp.left_cnts_buf ∧
    dp.Init.right_cnts_buf = dp.right_cnts_buf ∧
    dp.Init.left_write_pos_buf = dp.left_write_pos_buf ∧
    dp.Init.right_write_pos_buf = dp.right_write_pos_buf := by
  unfold DataPartition.Init
  rw [h]
  simp [listWriteAt]

theorem Init_fields_some (dp : DataPartition) (S : List Nat)
    (h : dp.used_data_indices = some S) :
    dp.Init.leaf_begin = List.replicate dp.leaf_begin.length 0 ∧
    dp.Init.leaf_count =
      (List.replicate dp.leaf_count.length 0).set 0 S.length ∧
    dp.Init.indices = S ++ dp.indices.drop S.length ∧
    dp.Init.used_data_indices = some S ∧
    dp.Init.num_data = dp.num_data ∧
    dp.Init.num_leaves = dp.num_leaves ∧
    dp.Init.temp_left_indices = dp.temp_left_indices ∧
    dp.Init.temp_right_indices = dp.temp_right_indices ∧
    dp.Init.num_threads = dp.num_threads ∧
    dp.Init.offsets_buf = dp.offsets_buf ∧
    dp.Init.left_cnts_buf = dp.left_cnts_buf ∧
    dp.Init.right_cnts_buf = dp.right_cnts_buf ∧
    dp.Init.left_write_pos_buf = dp.left_write_pos_buf ∧
    dp.Init.right_write_pos_buf = dp.right_write_pos_buf := by
  unfold DataPartition.Init
  rw [h]
  simp [listWriteAt]

end InitProof

/-- C4: after `Init`, leaf 0 holds the identity permutation `0..num_data-1`
when no bagging subset was set (with `leaf_count[0] = num_data`), and
otherwise exactly the supplied subset `S` in its given order (with
`leaf_count[0] = |S|`); every other leaf has `leaf_count = 0`; every
`leaf_begin` is 0; hence every leaf's ids are drawn exclusively from the
active set and the leaf counts sum to the active count. -/
theorem C4_init_postcondition (dp : DataPartition)
    (hnl : 1 ≤ dp.num_leaves)
    (hlb : dp.leaf_begin.length = dp.num_leaves)
    (hlc : dp.leaf_count.length = dp.num_leaves)
    (hind : dp.indices.length = dp.num_data)
    (hused : ∀ S, dp.used_data_indices = some S →
      S.length ≤ dp.num_data) :
    (dp.used_data_indices = none →
      dp.Init.leaf_count.getD 0 0 = dp.num_data ∧
      dp.Init.indices = List.range dp.num_data) ∧
    (∀ S, dp.used_data_indices = some S →
      dp.Init.leaf_count.getD 0 0 = S.length ∧
      dp.Init.indices.take S.length = S) ∧
    (∀ l, l ≠ 0 → dp.Init.leaf_count.getD l 0 = 0) ∧
    (∀ l, dp.Init.leaf_begin.getD l 0 = 0) ∧
    dp.Init.sumLeafCounts = dp.activeCount ∧
    (∀ l, ∀ x, x ∈ readSlice dp.Init.indices
        (dp.Init.leaf_begin.getD l 0) (dp.Init.leaf_count.getD l 0) →
      x ∈ dp.activeIds) := by
  rcases hu : dp.used_data_indices with _ | S
  · obtain ⟨f1, f2, f3, f4, f5, f6, _⟩ := Init_fields_none dp hu
    have hcount0 : dp.Init.leaf_count.getD 0 0 = dp.num_data := by
      rw [f2, getD_set_self _ _ _ (by rw [List.length_replicate]; omega)]
    have hindices : dp.Init.indices = List.range dp.num_data := by
      rw [f3, show dp.indices.drop dp.num_data = [] from
        List.drop_eq_nil_of_le (by omega), List.append_nil]
    have hother : ∀ l, l ≠ 0 → dp.Init.leaf_count.getD l 0 = 0 := by
      intro l hl
      rw [f2, getD_set_ne _ 0 l _ (fun hh => hl hh.symm),
        getD_replicate_zero]
    have hbegin : ∀ l, dp.Init.leaf_begin.getD l 0 = 0 := by
      intro l
      rw [f1, getD_replicate_zero]
    refine ⟨fun _ => ⟨hcount0, hindices⟩, ?_, hother, hbegin, ?_, ?_⟩
    · intro S hS
      cases hS
    · unfold DataPartition.sumLeafCounts DataPartition.activeCount
      rw [hu, f6]
      exact sum_single _ _ hnl _ hcount0 hother
    · intro l x hx
      unfold DataPartition.activeIds
      rw [hu]
      rcases Nat.eq_zero_or_pos l with hl | hl
      · subst hl
        rw [hbegin 0, hcount0, hindices] at hx
        have hrs : readSlice (List.range dp.num_data) 0 dp.num_data =
            List.range dp.num_data := by
          simp [readSlice, List.take_range]
        rw [hrs] at hx
        exact hx
      · rw [hother l (by omega)] at hx
        simp [readSlice] at hx
  · obtain ⟨f1, f2, f3, f4, f5, f6, _⟩ := Init_fields_some dp S hu
    have hS := hused S hu
    have hcount0 : dp.Init.leaf_count.getD 0 0 = S.length := by
      rw [f2, getD_set_self _ _ _ (by rw [List.length_replicate]; omega)]
    have hindices : dp.Init.indices.take S.length = S := by
      rw [f3, List.take_left]
    have hother : ∀ l, l ≠ 0 → dp.Init.leaf_count.getD l 0 = 0 := by
      intro l hl
      rw [f2, getD_set_ne _ 0 l _ (fun hh => hl hh.symm),
        getD_replicate_zero]
    have hbegin : ∀ l, dp.Init.leaf_begin.getD l 0 = 0 := by
      intro l
      rw [f1, getD_replicate_zero]
    refine ⟨?_, fun S2 hS2 => ?_, hother, hbegin, ?_, ?_⟩
    · intro hnone
      cases hnone
    · cases hS2
      exact ⟨hcount0, hindices⟩
    · unfold DataPartition.sumLeafCounts DataPartition.activeCount
      rw [hu, f6]
      exact sum_single _ _ hnl _ hcount0 hother
    · intro l x hx
      unfold DataPartition.activeIds
      rw [hu]
      rcases Nat.eq_zero_or_pos l with hl | hl
      · subst hl
        rw [hbegin 0, hcount0] at hx
        have : readSlice dp.Init.indices 0 S.length =
            dp.Init.indices.take S.length := by
          simp [readSlice]
        rw [this, hindices] at hx
        exact hx
      · rw [hother l (by omega)] at hx
        simp [readSlice] at hx

/-- C4 witness: a 6-row store with bagging subset `[4, 1, 5]`. -/
theorem C4_init_postcondition_witness :
    (((DataPartition.construct 6 3 2).SetUsedDataIndices
        [4, 1, 5]).Init.leaf_count.getD 0 0 = 3 ∧
      ((DataPartition.construct 6 3 2).SetUsedDataIndices
        [4, 1, 5]).Init.indices.take 3 = [4, 1, 5]) ∧
    ((DataPartition.construct 6 3 2).SetUsedDataIndices
      [4, 1, 5]).Init.leaf_count.getD 1 0 = 0 ∧
    ((DataPartition.construct 6 3 2).SetUsedDataIndices
      [4, 1, 5]).Init.leaf_begin.getD 1 0 = 0 ∧
    ((DataPartition.construct 6 3 2).SetUsedDataIndices
      [4, 1, 5]).Init.sumLeafCounts =
      ((DataPartition.construct 6 3 2).SetUsedDataIndices
        [4, 1, 5]).activeCount := by
  have h := C4_init_postcondition
    ((DataPartition.construct 6 3 2).SetUsedDataIndices [4, 1, 5])
    (by decide) (by decide) (by decide) (by decide)
    (fun S hS => by cases hS; decide)
  exact ⟨h.2.1 [4, 1, 5] rfl, h.2.2.1 1 (by decide), h.2.2.2.1 1,
    h.2.2.2.2.1⟩

section InvariantProof

/-- The optional `SetUsedDataIndices` call a driver may make before `Init`
(spec section 4.2): `none` trains on the full data, `some S` on the bagging
subset `S`. -/
def DataPartition.setUsedOpt (dp : DataPartition)
    (used : Option (List Nat)) : DataPartition :=
  match used with
  | none => dp
  | some S => dp.SetUsedDataIndices S

/-- The partition invariant (spec section 3), together with the structural
well-formedness that `DataPartition`'s constructor establishes and every
operation preserves.  `T` is the ambient thread count used by `Split`. -/
structure PartitionInv (T : Nat) (dp : DataPartition) : Prop where
  hnl : 1 ≤ dp.num_leaves
  hlb : dp.leaf_begin.length = dp.num_leaves
  hlc : dp.leaf_count.length = dp.num_leaves
  hind : dp.indices.length = dp.num_data
  htl : dp.temp_left_indices.length = dp.num_data
  htr : dp.temp_right_indices.length = dp.num_data
  hob : T ≤ dp.offsets_buf.length
  hlcb : T ≤ dp.left_cnts_buf.length
  hrcb : T ≤ dp.right_cnts_buf.length
  hlwb : T ≤ dp.left_write_pos_buf.length
  hrwb : T ≤ dp.right_write_pos_buf.length
  hactive : dp.activeCount ≤ dp.num_data
  hnodup : dp.activeIds.Nodup
  hperm : ((dp.leafRanges).flatten).Perm (List.range dp.activeCount)
  hcontents : (dp.indices.take dp.activeCount).Perm dp.activeIds

/-- The states reachable by one construction, an optional bagging
registration, an `Init`, and any number of valid `Split` calls, each with a
stable (predicate-driven) oracle, a previously unused `right_leaf`, and
in-range distinct leaf ids. -/
inductive Reach (T : Nat) : DataPartition → Prop where
  | init : ∀ (nd nl nt : Nat) (used : Option (List Nat)),
      1 ≤ nl → T ≤ nt →
      (∀ S, used = some S → S.length ≤ nd ∧ S.Nodup) →
      Reach T (((DataPartition.construct nd nl nt).setUsedOpt used).Init)
  | split : ∀ (dp dp2 : DataPartition) (p : Nat → Bool) (leaf rl : Nat),
      Reach T dp →
      leaf < dp.num_leaves → rl < dp.num_leaves → leaf ≠ rl →
      dp.leaf_count.getD rl 0 = 0 →
      DataPartition.Split (oracleOfPred p) T dp leaf rl = some dp2 →
      Reach T dp2

theorem activeCount_congr (dpa dpb : DataPartition)
    (h1 : dpa.used_data_indices = dpb.used_data_indices)
    (h2 : dpa.num_data = dpb.num_data) :
    dpa.activeCount = dpb.activeCount := by
  unfold DataPartition.activeCount
  rw [h1, h2]

theorem activeIds_congr (dpa dpb : DataPartition)
    (h1 : dpa.used_data_indices = dpb.used_data_indices)
    (h2 : dpa.num_data = dpb.num_data) :
    dpa.activeIds = dpb.activeIds := by
  unfold DataPartition.activeIds
  rw [h1, h2]

theorem flatten_map_single (g : Nat → List Nat) (n : Nat) (hn : 1 ≤ n)
    (hother : ∀ l, l ≠ 0 → g l = []) :
    ((List.range n).map g).flatten = g 0 := by
  induction n with
  | zero => omega
  | succ n ih =>
    rw [flatten_range_succ]
    rcases Nat.eq_zero_or_pos n with h | h
    · subst h
      simp
    · rw [ih (by omega), hother n (by omega), List.append_nil]

theorem Inv_init (T nd nl nt : Nat) (used : Option (List Nat))
    (hnl : 1 ≤ nl) (hnt : T ≤ nt)
    (hused : ∀ S, used = some S → S.length ≤ nd ∧ S.Nodup) :
    PartitionInv T (((DataPartition.construct nd nl nt).setUsedOpt
      used).Init) := by
  set dp0 := (DataPartition.construct nd nl nt).setUsedOpt used with hdp0
  have hfields : dp0.num_data = nd ∧ dp0.num_leaves = nl ∧
      dp0.leaf_begin = List.replicate nl 0 ∧
      dp0.leaf_count = List.replicate nl 0 ∧
      dp0.indices = List.replicate nd 0 ∧
      dp0.temp_left_indices = List.replicate nd 0 ∧
      dp0.temp_right_indices = List.replicate nd 0 ∧
      dp0.used_data_indices = used ∧
      dp0.offsets_buf = List.replicate nt 0 ∧
      dp0.left_cnts_buf = List.replicate nt 0 ∧
      dp0.right_cnts_buf = List.replicate nt 0 ∧
      dp0.left_write_pos_buf = List.replicate nt 0 ∧
      dp0.right_write_pos_buf = List.replicate nt 0 := by
    rcases used with _ | S <;>
      simp [hdp0, DataPartition.setUsedOpt, DataPartition.construct,
        DataPartition.SetUsedDataIndices]
  obtain ⟨g1, g2, g3, g4, g5, g6, g7, g8, g9, g10, g11, g12, g13⟩ := hfields
  rcases hu : used with _ | S
  · have hu0 : dp0.used_data_indices = none := by rw [g8, hu]
    obtain ⟨f1, f2, f3, f4, f5, f6, f7, f8, _, f10, f11, f12, f13, f14⟩ :=
      Init_fields_none dp0 hu0
    have hcount0 : dp0.Init.leaf_count.getD 0 0 = nd := by
      rw [f2, g1, getD_set_self _ _ _
        (by rw [List.length_replicate, g4, List.length_replicate]; omega)]
    have hac : dp0.Init.activeCount = nd := by
      unfold DataPartition.activeCount
      rw [f4, f5, g1]
    have hai : dp0.Init.activeIds = List.range nd := by
      unfold DataPartition.activeIds
      rw [f4, f5, g1]
    refine ⟨by rw [f6, g2]; exact hnl, by rw [f1, g3, f6, g2]; simp, ?_,
      ?_, ?_, ?_, ?_, ?_, ?_, ?_, ?_, ?_, ?_, ?_, ?_⟩
    · rw [f2, List.length_set, List.length_replicate, g4,
        List.length_replicate, f6, g2]
    · rw [f3, g1, f5, g1, List.length_append, List.length_range,
        List.length_drop]
      rw [g5, List.length_replicate]
      omega
    · rw [f7, g6, List.length_replicate, f5, g1]
    · rw [f8, g7, List.length_replicate, f5, g1]
    · rw [f10, g9, List.length_replicate]; omega
    · rw [f11, g10, List.length_replicate]; omega
    · rw [f12, g11, List.length_replicate]; omega
    · rw [f13, g12, List.length_replicate]; omega
    · rw [f14, g13, List.length_replicate]; omega
    · rw [hac, f5, g1]
    · rw [hai]
      exact List.nodup_range nd
    · -- leaf ranges tile [0, nd)
      unfold DataPartition.leafRanges
      rw [hac, f6, g2]
      have hflat : ((List.range nl).map fun l =>
          List.range' (dp0.Init.leaf_begin.getD l 0)
            (dp0.Init.leaf_count.getD l 0)).flatten =
          List.range' 0 nd := by
        rw [flatten_map_single _ nl hnl]
        · rw [show dp0.Init.leaf_begin.getD 0 0 = 0 by
            rw [f1, getD_replicate_zero], hcount0]
        · intro l hl
          rw [show dp0.Init.leaf_count.getD l 0 = 0 by
            rw [f2, getD_set_ne _ 0 l _ (fun hh => hl hh.symm), g4,
              List.length_replicate, getD_replicate_zero]]
          rfl
      rw [hflat, ← List.range_eq_range']
    · rw [hac, hai, f3, g1]
      have : (List.range nd).length = nd := List.length_range nd
      rw [List.take_append_of_le_length (by omega), List.take_of_length_le
        (by omega)]
  · have hu0 : dp0.used_data_indices = some S := by rw [g8, hu]
    obtain ⟨hSlen, hSnodup⟩ := hused S hu
    obtain ⟨f1, f2, f3, f4, f5, f6, f7, f8, _, f10, f11, f12, f13, f14⟩ :=
      Init_fields_some dp0 S hu0
    have hcount0 : dp0.Init.leaf_count.getD 0 0 = S.length := by
      rw [f2, getD_set_self _ _ _
        (by rw [List.length_replicate, g4, List.length_replicate]; omega)]
    have hac : dp0.Init.activeCount = S.length := by
      unfold DataPartition.activeCount
      rw [f4]
    have hai : dp0.Init.activeIds = S := by
      unfold DataPartition.activeIds
      rw [f4]
    refine ⟨by rw [f6, g2]; exact hnl, by rw [f1, g3, f6, g2]; simp, ?_,
      ?_, ?_, ?_, ?_, ?_, ?_, ?_, ?_, ?_, ?_, ?_, ?_⟩
    · rw [f2, List.length_set, List.length_replicate, g4,
        List.length_replicate, f6, g2]
    · rw [f3, f5, g1, List.length_append, List.length_drop, g5,
        List.length_replicate]
      omega
    · rw [f7, g6, List.length_replicate, f5, g1]
    · rw [f8, g7, List.length_replicate, f5, g1]
    · rw [f10, g9, List.length_replicate]; omega
    · rw [f11, g10, List.length_replicate]; omega
    · rw [f12, g11, List.length_replicate]; omega
    · rw [f13, g12, List.length_replicate]; omega
    · rw [f14, g13, List.length_replicate]; omega
    · rw [hac, f5, g1]
      exact hSlen
    · rw [hai]
      exact hSnodup
    · unfold DataPartition.leafRanges
      rw [hac, f6, g2]
      have hflat : ((List.range nl).map fun l =>
          List.range' (dp0.Init.leaf_begin.getD l 0)
            (dp0.Init.leaf_count.getD l 0)).flatten =
          List.range' 0 S.length := by
        rw [flatten_map_single _ nl hnl]
        · rw [show dp0.Init.leaf_begin.getD 0 0 = 0 by
            rw [f1, getD_replicate_zero], hcount0]
        · intro l hl
          rw [show dp0.Init.leaf_count.getD l 0 = 0 by
            rw [f2, getD_set_ne _ 0 l _ (fun hh => hl hh.symm), g4,
              List.length_replicate, getD_replicate_zero]]
          rfl
      rw [hflat, ← List.range_eq_range']
    · rw [hac, hai, f3, List.take_left]

theorem sum_range_succ_m (f : Nat → Multiset Nat) (k : Nat) :
    ((List.range (k + 1)).map f).sum = ((List.range k).map f).sum + f k := by
  rw [List.range_succ, List.map_append, List.sum_append]
  simp

theorem msum_range_add (F G : Nat → Multiset Nat) (n : Nat) :
    ((List.range n).map fun j => F j + G j).sum =
      ((List.range n).map F).sum + ((List.range n).map G).sum := by
  induction n with
  | zero => simp
  | succ n ih =>
    rw [sum_range_succ_m, sum_range_succ_m, sum_range_succ_m, ih]
    abel

theorem msum_range_congr (F G : Nat → Multiset Nat) (n : Nat)
    (h : ∀ j, j < n → F j = G j) :
    ((List.range n).map F).sum = ((List.range n).map G).sum := by
  congr 1
  apply List.map_eq_map_iff.mpr
  intro j hj
  exact h j (List.mem_range.mp hj)

theorem Inv_split (T : Nat) (hT : 1 ≤ T) (dp dp2 : DataPartition)
    (p : Nat → Bool) (leaf rl : Nat)
    (hInv : PartitionInv T dp)
    (hleaf : leaf < dp.num_leaves) (hrl : rl < dp.num_leaves)
    (hne : leaf ≠ rl) (hrlempty : dp.leaf_count.getD rl 0 = 0)
    (hS : DataPartition.Split (oracleOfPred p) T dp leaf rl = some dp2) :
    PartitionInv T dp2 := by
  obtain ⟨hnl, hlb, hlc, hind, htl, htr, hob, hlcb, hrcb, hlwb, hrwb,
    hactive, hnodup, hperm, hcontents⟩ := hInv
  have hc : 0 < dp.leaf_count.getD leaf 0 := by
    rcases Nat.eq_zero_or_pos (dp.leaf_count.getD leaf 0) with h0 | h0
    · rw [Split_none_of_empty _ T hT dp leaf rl h0] at hS
      cases hS
    · exact h0
  set b0 := dp.leaf_begin.getD leaf 0 with hb0
  set c0 := dp.leaf_count.getD leaf 0 with hc0
  set nb := (Threading.BlockInfo T c0 1024).1 with hnb
  set bs := (Threading.BlockInfo T c0 1024).2 with hbs
  have hrangesub : b0 + c0 ≤ dp.activeCount := by
    have hmem : List.range' b0 c0 ∈ dp.leafRanges := by
      rw [hb0, hc0]
      unfold DataPartition.leafRanges
      exact List.mem_map.mpr ⟨leaf, List.mem_range.mpr hleaf, rfl⟩
    have hx : b0 + c0 - 1 ∈ List.range' b0 c0 := by
      rw [List.mem_range'_1]
      omega
    have hxflat : b0 + c0 - 1 ∈ (dp.leafRanges).flatten :=
      List.mem_flatten.mpr ⟨_, hmem, hx⟩
    have := (hperm.mem_iff).mp hxflat
    rw [List.mem_range] at this
    omega
  have hindbound : b0 + c0 ≤ dp.indices.length := by omega
  have hnbT := BlockInfo_nblock_le T c0 1024
  rw [← hnb] at hnbT
  obtain ⟨dp2', hSeq, hInd, hLC, hLB, hND, hNL, hUD, hNT, hTot, hIL, hTL2,
    hTR2, hOB2, hLCB2, hRCB2, hLWB2, hRWB2⟩ :=
    Split_spec (oracleOfPred p) (fun xs => oracleOfPred_len p xs) T dp leaf
      rl b0 c0 nb bs hb0.symm hc0.symm hnb.symm hbs.symm hT hc hindbound
      (by omega) (by omega) (by omega) (by omega) (by omega) (by omega)
      (by omega)
  have hdp2 : dp2 = dp2' := (Option.some.inj (hSeq.symm.trans hS)).symm
  subst hdp2
  set Lf := (splitLeftsAt (oracleOfPred p) dp.indices b0 c0 bs nb).flatten
    with hLfdef
  set Rf := (splitRightsAt (oracleOfPred p) dp.indices b0 c0 bs nb).flatten
    with hRfdef
  have hLnle : Lf.length ≤ c0 := by omega
  have hleafb : leaf < dp.leaf_begin.length := by omega
  have hleafc : leaf < dp.leaf_count.length := by omega
  have hrlb : rl < dp.leaf_begin.length := by omega
  have hrlc : rl < dp.leaf_count.length := by omega
  have hAC : dp2.activeCount = dp.activeCount :=
    activeCount_congr dp2 dp hUD hND
  have hAI : dp2.activeIds = dp.activeIds :=
    activeIds_congr dp2 dp hUD hND
  -- getD values of the updated bookkeeping
  have glb_leaf : dp2.leaf_begin.getD leaf 0 = b0 := by
    rw [hLB, getD_set_ne _ rl leaf _ (fun h => hne h.symm)]
  have glb_rl : dp2.leaf_begin.getD rl 0 = Lf.length + b0 := by
    rw [hLB, getD_set_self _ _ _ hrlb]
  have glb_other : ∀ l, l ≠ rl →
      dp2.leaf_begin.getD l 0 = dp.leaf_begin.getD l 0 := by
    intro l hl
    rw [hLB, getD_set_ne _ rl l _ (fun h => hl h.symm)]
  have glc_leaf : dp2.leaf_count.getD leaf 0 = Lf.length := by
    rw [hLC, getD_set_ne _ rl leaf _ (fun h => hne h.symm),
      getD_set_self _ _ _ hleafc]
  have glc_rl : dp2.leaf_count.getD rl 0 = c0 - Lf.length := by
    rw [hLC, getD_set_self _ _ _ (by rw [List.length_set]; exact hrlc)]
  have glc_other : ∀ l, l ≠ leaf → l ≠ rl →
      dp2.leaf_count.getD l 0 = dp.leaf_count.getD l 0 := by
    intro l h1 h2
    rw [hLC, getD_set_ne _ rl l _ (fun h => h2 h.symm),
      getD_set_ne _ leaf l _ (fun h => h1 h.symm)]
  refine ⟨by rw [hNL]; exact hnl, ?_, ?_, ?_, ?_, ?_, ?_, ?_, ?_, ?_, ?_,
    ?_, ?_, ?_, ?_⟩
  · rw [hLB, List.length_set, hNL]
    exact hlb
  · rw [hLC, List.length_set, List.length_set, hNL]
    exact hlc
  · rw [hIL, hND]
    exact hind
  · rw [hTL2, hND]
    exact htl
  · rw [hTR2, hND]
    exact htr
  · rw [hOB2]
    exact hob
  · rw [hLCB2]
    exact hlcb
  · rw [hRCB2]
    exact hrcb
  · rw [hLWB2]
    exact hlwb
  · rw [hRWB2]
    exact hrwb
  · rw [hAC, hND]
    exact hactive
  · rw [hAI]
    exact hnodup
  · -- the leaf ranges still tile the active prefix
    have htwo := sum_map_range_congr_two dp.num_leaves leaf rl
      (fun l => Multiset.ofList (List.range' (dp2.leaf_begin.getD l 0)
        (dp2.leaf_count.getD l 0)))
      (fun l => Multiset.ofList (List.range' (dp.leaf_begin.getD l 0)
        (dp.leaf_count.getD l 0)))
      hne hleaf hrl (fun x hx hx1 hx2 => by
        show Multiset.ofList (List.range' (dp2.leaf_begin.getD x 0)
            (dp2.leaf_count.getD x 0)) =
          Multiset.ofList (List.range' (dp.leaf_begin.getD x 0)
            (dp.leaf_count.getD x 0))
        rw [glb_other x hx2, glc_other x hx1 hx2])
    have htwo2 : ((List.range dp.num_leaves).map fun l =>
        Multiset.ofList (List.range' (dp2.leaf_begin.getD l 0)
          (dp2.leaf_count.getD l 0))).sum +
        (Multiset.ofList (List.range' (dp.leaf_begin.getD leaf 0)
          (dp.leaf_count.getD leaf 0)) +
          Multiset.ofList (List.range' (dp.leaf_begin.getD rl 0)
            (dp.leaf_count.getD rl 0))) =
        ((List.range dp.num_leaves).map fun l =>
          Multiset.ofList (List.range' (dp.leaf_begin.getD l 0)
            (dp.leaf_count.getD l 0))).sum +
        (Multiset.ofList (List.range' (dp2.leaf_begin.getD leaf 0)
          (dp2.leaf_count.getD leaf 0)) +
          Multiset.ofList (List.range' (dp2.leaf_begin.getD rl 0)
            (dp2.leaf_count.getD rl 0))) := htwo
    rw [hrlempty, List.range'_zero, Multiset.coe_nil, add_zero] at htwo2
    rw [← hb0, ← hc0] at htwo2
    rw [glb_leaf, glc_leaf, glb_rl, glc_rl, Multiset.coe_add] at htwo2
    rw [show Lf.length + b0 = b0 + Lf.length from Nat.add_comm _ _] at htwo2
    rw [List.range'_append_1] at htwo2
    rw [show c0 - Lf.length + Lf.length = c0 from by omega] at htwo2
    have hsums := add_right_cancel htwo2
    have hkey : Multiset.ofList ((dp2.leafRanges).flatten) =
        Multiset.ofList (List.range dp.activeCount) := by
      rw [coe_join_multiset]
      unfold DataPartition.leafRanges
      rw [hNL, List.map_map]
      show ((List.range dp.num_leaves).map fun l =>
          Multiset.ofList (List.range' (dp2.leaf_begin.getD l 0)
            (dp2.leaf_count.getD l 0))).sum =
        Multiset.ofList (List.range dp.activeCount)
      rw [hsums]
      have hold : Multiset.ofList ((dp.leafRanges).flatten) =
          Multiset.ofList (List.range dp.activeCount) :=
        Multiset.coe_eq_coe.mpr hperm
      rw [coe_join_multiset] at hold
      unfold DataPartition.leafRanges at hold
      rw [List.map_map] at hold
      exact hold
    rw [hAC]
    exact Multiset.coe_eq_coe.mp hkey
  · -- contents of the active prefix are still a permutation of the ids
    rw [hAC, hAI]
    set A := dp.activeCount with hA
    -- decompose the new and old active prefixes around the leaf's range
    have hXlen : (dp.indices.take b0 ++ Lf ++ Rf).length = b0 + c0 := by
      simp only [List.length_append, List.length_take]
      omega
    have hnewtake : dp2.indices.take A =
        (dp.indices.take b0 ++ Lf ++ Rf) ++
          readSlice dp.indices (b0 + c0) (A - (b0 + c0)) := by
      have hXA : (dp.indices.take b0 ++ Lf ++ Rf).length ≤ A := by
        rw [hXlen]
        omega
      rw [hInd, List.take_append_eq_append_take,
        List.take_of_length_le hXA, hXlen]
      rfl
    have holdtake : dp.indices.take A =
        dp.indices.take b0 ++ readSlice dp.indices b0 c0 ++
          readSlice dp.indices (b0 + c0) (A - (b0 + c0)) := by
      have h1 : dp.indices.take b0 = readSlice dp.indices 0 b0 := by
        simp [readSlice]
      have h2 : dp.indices.take A = readSlice dp.indices 0 A := by
        simp [readSlice]
      have h3 := readSlice_append dp.indices 0 b0 c0
      rw [show (0 : Nat) + b0 = b0 from by omega] at h3
      have h4 := readSlice_append dp.indices 0 (b0 + c0) (A - (b0 + c0))
      rw [show (0 : Nat) + (b0 + c0) = b0 + c0 from by omega,
        show b0 + c0 + (A - (b0 + c0)) = A from by omega] at h4
      rw [h1, h2, h3, h4]
    -- the merged block outputs are a permutation of the old leaf slice
    have hcov : c0 ≤ bs * nb := by
      have hmg := BlockInfo_mul_ge T c0 1024 (by omega) hT
      rw [← hnb, ← hbs] at hmg
      rw [Nat.mul_comm]
      exact hmg
    have hflat := slices_flatten dp.indices b0 c0 bs nb hindbound hcov
    have hLm : Multiset.ofList Lf =
        ((List.range nb).map fun i => Multiset.ofList
          ((oracleOfPred p (readSlice dp.indices (b0 + bs * i)
            (min c0 (bs * i + bs) - bs * i))).1)).sum := by
      rw [hLfdef]
      unfold splitLeftsAt
      rw [coe_join_multiset, List.map_map]
      rfl
    have hRm : Multiset.ofList Rf =
        ((List.range nb).map fun i => Multiset.ofList
          ((oracleOfPred p (readSlice dp.indices (b0 + bs * i)
            (min c0 (bs * i + bs) - bs * i))).2)).sum := by
      rw [hRfdef]
      unfold splitRightsAt
      rw [coe_join_multiset, List.map_map]
      rfl
    have hadd : ((List.range nb).map fun j =>
        Multiset.ofList ((oracleOfPred p (readSlice dp.indices (b0 + bs * j)
          (min c0 (bs * j + bs) - bs * j))).1) +
        Multiset.ofList ((oracleOfPred p (readSlice dp.indices (b0 + bs * j)
          (min c0 (bs * j + bs) - bs * j))).2)).sum =
        ((List.range nb).map fun i => Multiset.ofList
          ((oracleOfPred p (readSlice dp.indices (b0 + bs * i)
            (min c0 (bs * i + bs) - bs * i))).1)).sum +
        ((List.range nb).map fun i => Multiset.ofList
          ((oracleOfPred p (readSlice dp.indices (b0 + bs * i)
            (min c0 (bs * i + bs) - bs * i))).2)).sum :=
      msum_range_add _ _ nb
    have hc2 : ((List.range nb).map fun j =>
        Multiset.ofList ((oracleOfPred p (readSlice dp.indices (b0 + bs * j)
          (min c0 (bs * j + bs) - bs * j))).1) +
        Multiset.ofList ((oracleOfPred p (readSlice dp.indices (b0 + bs * j)
          (min c0 (bs * j + bs) - bs * j))).2)).sum =
        ((List.range nb).map fun j => Multiset.ofList
          (readSlice dp.indices (b0 + bs * j)
            (min c0 (bs * j + bs) - bs * j))).sum := by
      apply msum_range_congr
      intro j hj
      show Multiset.ofList ((oracleOfPred p (readSlice dp.indices
          (b0 + bs * j) (min c0 (bs * j + bs) - bs * j))).1) +
        Multiset.ofList ((oracleOfPred p (readSlice dp.indices
          (b0 + bs * j) (min c0 (bs * j + bs) - bs * j))).2) =
        Multiset.ofList (readSlice dp.indices (b0 + bs * j)
          (min c0 (bs * j + bs) - bs * j))
      rw [Multiset.coe_add]
      exact Multiset.coe_eq_coe.mpr (oracleOfPred_perm p _)
    have hfin : ((List.range nb).map fun j => Multiset.ofList
        (readSlice dp.indices (b0 + bs * j)
          (min c0 (bs * j + bs) - bs * j))).sum =
        Multiset.ofList (readSlice dp.indices b0 c0) := by
      rw [← hflat, coe_join_multiset, List.map_map]
      rfl
    have hmideq : Multiset.ofList (Lf ++ Rf) =
        Multiset.ofList (readSlice dp.indices b0 c0) := by
      rw [show (Multiset.ofList (Lf ++ Rf)) = Multiset.ofList Lf +
          Multiset.ofList Rf from (Multiset.coe_add Lf Rf).symm,
        hLm, hRm, ← hadd, hc2, hfin]
    have hmid : (Lf ++ Rf).Perm (readSlice dp.indices b0 c0) :=
      Multiset.coe_eq_coe.mp hmideq
    have hstep : (dp2.indices.take A).Perm (dp.indices.take A) := by
      rw [hnewtake, holdtake]
      have hp2 := (hmid.append_right (readSlice dp.indices (b0 + c0)
        (A - (b0 + c0)))).append_left (dp.indices.take b0)
      simpa [List.append_assoc] using hp2
    exact hstep.trans hcontents

theorem Reach_inv (T : Nat) (hT : 1 ≤ T) (dp : DataPartition)
    (h : Reach T dp) : PartitionInv T dp := by
  induction h with
  | init nd nl nt used hnl hnt hused =>
    exact Inv_init T nd nl nt used hnl hnt hused
  | split dpa dpb p leaf rl hR hleaf hrl hnex hrle hSx ih =>
    exact Inv_split T hT dpa dpb p leaf rl ih hleaf hrl hnex hrle hSx

theorem leafRanges_flatten_length (dp : DataPartition) :
    ((dp.leafRanges).flatten).length = dp.sumLeafCounts := by
  unfold DataPartition.leafRanges DataPartition.sumLeafCounts
  rw [List.length_flatten, List.map_map]
  congr 1
  apply List.map_eq_map_iff.mpr
  intro l hl
  simp [List.length_range']

/-- C1: after `Init`, and after any sequence of valid `Split` calls (each
with a stable oracle, in-range distinct leaf ids, and a previously unused
`right_leaf`), the sum of `leaf_count` over all leaves equals the active
data count (`num_data`, or `used_data_count` under bagging); the per-leaf
ranges `[leaf_begin[l], leaf_begin[l]+leaf_count[l])` are pairwise disjoint
and tile the prefix `[0, active_count)` of `indices` with no gaps; and
every active example id appears in exactly one leaf's slice of
`indices`. -/
theorem C1_partition_invariant (T : Nat) (dp : DataPartition)
    (hT : 1 ≤ T) (hR : Reach T dp) :
    dp.sumLeafCounts = dp.activeCount ∧
    ((dp.leafRanges).flatten).Perm (List.range dp.activeCount) ∧
    ((dp.leafIds).flatten).Perm dp.activeIds ∧
    ∀ x, x ∈ dp.activeIds → ((dp.leafIds).flatten).count x = 1 := by
  obtain ⟨hnl, hlb, hlc, hind, htl, htr, hob, hlcb, hrcb, hlwb, hrwb,
    hactive, hnodup, hperm, hcontents⟩ := Reach_inv T hT dp hR
  have h1 : dp.sumLeafCounts = dp.activeCount := by
    rw [← leafRanges_flatten_length, hperm.length_eq, List.length_range]
  have hbound : ∀ l, l < dp.num_leaves →
      readSlice dp.indices (dp.leaf_begin.getD l 0)
        (dp.leaf_count.getD l 0) =
      (List.range' (dp.leaf_begin.getD l 0)
        (dp.leaf_count.getD l 0)).map fun j => dp.indices.getD j 0 := by
    intro l hl
    rcases Nat.eq_zero_or_pos (dp.leaf_count.getD l 0) with h0 | h0
    · rw [h0]
      rfl
    · apply readSlice_eq_map
      have hmem : dp.leaf_begin.getD l 0 + dp.leaf_count.getD l 0 - 1 ∈
          (dp.leafRanges).flatten := by
        refine List.mem_flatten.mpr ⟨List.range' (dp.leaf_begin.getD l 0)
          (dp.leaf_count.getD l 0), ?_, ?_⟩
        · unfold DataPartition.leafRanges
          exact List.mem_map.mpr ⟨l, List.mem_range.mpr hl, rfl⟩
        · rw [List.mem_range'_1]
          omega
      have hlt := (hperm.mem_iff).mp hmem
      rw [List.mem_range] at hlt
      omega
  have hids : (dp.leafIds).flatten =
      ((dp.leafRanges).flatten).map fun j => dp.indices.getD j 0 := by
    unfold DataPartition.leafIds DataPartition.leafRanges
    rw [List.map_flatten, List.map_map]
    congr 1
    apply List.map_eq_map_iff.mpr
    intro l hl
    exact hbound l (List.mem_range.mp hl)
  have htake : (List.range dp.activeCount).map
      (fun j => dp.indices.getD j 0) = dp.indices.take dp.activeCount := by
    have hr := readSlice_eq_map dp.indices 0 dp.activeCount (by omega)
    rw [List.range_eq_range']
    rw [← hr]
    simp [readSlice]
  have h3 : ((dp.leafIds).flatten).Perm dp.activeIds := by
    rw [hids]
    refine (hperm.map fun j => dp.indices.getD j 0).trans ?_
    rw [htake]
    exact hcontents
  refine ⟨h1, hperm, h3, fun x hx => ?_⟩
  rw [h3.count_eq]
  exact List.count_eq_one_of_mem hnodup hx

/-- A concrete 6-row, 2-leaf, single-thread store right after `Init`. -/
def dpC1init : DataPartition :=
  ((DataPartition.construct 6 2 1).setUsedOpt none).Init

/-- The store after splitting leaf 0 of `dpC1init` on an even-id predicate,
with leaf 1 as the right leaf. -/
def dpC1 : DataPartition :=
  match DataPartition.Split (oracleOfPred fun x => x % 2 == 0) 1
      dpC1init 0 1 with
  | some d => d
  | none => dpC1init

/-- C1 witness: one `Init` followed by one even/odd `Split` on a 6-row
store; the partition invariant holds in the resulting state. -/
theorem C1_partition_invariant_witness :
    ((1 : Nat) ≤ 1 ∧ Reach 1 dpC1) ∧
    (dpC1.sumLeafCounts = dpC1.activeCount ∧
      ((dpC1.leafRanges).flatten).Perm (List.range dpC1.activeCount) ∧
      ((dpC1.leafIds).flatten).Perm dpC1.activeIds ∧
      ∀ x, x ∈ dpC1.activeIds → ((dpC1.leafIds).flatten).count x = 1) := by
  have hinit : Reach 1 dpC1init :=
    Reach.init 6 2 1 none (by decide) (by decide)
      (fun S hS => Option.noConfusion hS)
  have hq : DataPartition.Split (oracleOfPred fun x => x % 2 == 0) 1
      dpC1init 0 1 = some dpC1 := by decide
  have hreach : Reach 1 dpC1 :=
    Reach.split dpC1init dpC1 (fun x => x % 2 == 0) 0 1 hinit (by decide)
      (by decide) (by decide) (by decide) hq
  exact ⟨⟨by decide, hreach⟩,
    C1_partition_invariant 1 dpC1 (by decide) hreach⟩

end InvariantProof

end LightGBM
